import Mathlib

/-!
Verification of the FSRS preset merge-advisor core (`fsrs_merge_advisor`):
a shallow embedding of `distance.py` and `analyzer.py` over the real numbers
(Python floats are idealised as `ℝ`), together with theorems settling the
specification claims about matrix inversion, covariance estimation,
Mahalanobis distance, the profile analyzer and the recommendation rule.
Python exceptions are modelled with `Except`; a raised `ValueError` becomes
an `Except.error` carrying the error kind and message.
-/

namespace FsrsMergeAdvisor

/-- Error kinds of the core, as classified by the specification:
`invalidInput` models a `ValueError` with the given message raised on
malformed or mismatched data, `singularMatrix` the `ValueError("Matrix is
singular")` of Gauss-Jordan elimination, and `invalidParams` the failure of
the strict reference-covariance selection on non-canonical dimensionality. -/
inductive PyErr where
  | invalidInput (msg : String)
  | singularMatrix
  | invalidParams
deriving DecidableEq

/-- Modelled from the spec: the canonical FSRS-6 parameter dimensionality
(constant `FSRS6_RECENCY_DIM` of `reference_covariance.py`, a file absent
from the tree; §2 and §4.3 of the spec fix the value 21). -/
def FSRS6_RECENCY_DIM : ℕ := 21

/-- Embedding of `_identity` (distance.py): the size×size identity matrix. -/
def _identity (size : ℕ) : List (List ℝ) :=
  (List.range size).map (fun i => (List.range size).map (fun j => if i = j then (1 : ℝ) else 0))

/-- Modelled from the spec: the constant reference inverse-covariance matrix
(`FSRS6_RECENCY_INV_COVARIANCE_21` of `reference_covariance.py`, a file
absent from the tree). The spec fixes only that it is a process-wide
immutable 21×21 constant; its numeric entries are not given, so a fixed
21×21 matrix stands in for it. No theorem below depends on its entries. -/
def FSRS6_RECENCY_INV_COVARIANCE_21 : List (List ℝ) :=
  _identity FSRS6_RECENCY_DIM

/-- Modelled from the spec: the calibrated decision threshold
(`FSRS6_RECENCY_MAHALANOBIS_SHARED_PRESET_THRESHOLD` of
`reference_covariance.py`, a file absent from the tree). The spec's boundary
examples (`recommend(21, 3.79) == True`, `recommend(21, 3.8) == False` with
strict comparison) pin the value 3.8. -/
def FSRS6_RECENCY_MAHALANOBIS_SHARED_PRESET_THRESHOLD : ℝ := 3.8

/-- The tolerance `1e-15` below which a pivot or factor is treated as zero
in `_invert_matrix` (distance.py). -/
def PIVOT_TOL : ℝ := 1e-15

/-- First among ties index `r ∈ [lo, n)` maximising `|aug[r][c]|`: embedding of
`max(range(col, n), key=lambda r: abs(augmented[r][col]))` (distance.py line 21);
Python's `max` keeps the first of several maximal elements, which the fold's
strictly-greater update reproduces. -/
noncomputable def argmaxAbs (aug : List (List ℝ)) (c lo n : ℕ) : ℕ :=
  (List.range' (lo + 1) (n - (lo + 1))).foldl
    (fun best r =>
      if |(aug.getD r []).getD c 0| > |(aug.getD best []).getD c 0| then r else best)
    lo

/-- Scale the first `k` entries of a row by `s`, leaving later entries alone:
embedding of `for j in range(2 * n): augmented[col][j] *= scale`. -/
def scaleFirst (k : ℕ) (s : ℝ) (row : List ℝ) : List ℝ :=
  row.enum.map (fun p => if p.1 < k then p.2 * s else p.2)

/-- Subtract `factor` times the pivot row from the first `k` entries of a row:
embedding of `for j in range(2 * n): augmented[row][j] -= factor * augmented[col][j]`. -/
def subFirst (k : ℕ) (factor : ℝ) (pivotRow row : List ℝ) : List ℝ :=
  row.enum.map (fun p => if p.1 < k then p.2 - factor * pivotRow.getD p.1 0 else p.2)

/-- Swap rows `i` and `j` of a matrix (simultaneous assignment
`augmented[col], augmented[pivot_row] = augmented[pivot_row], augmented[col]`). -/
def swapRows (a : List (List ℝ)) (i j : ℕ) : List (List ℝ) :=
  (a.set i (a.getD j [])).set j (a.getD i [])

/-- One column step of the Gauss-Jordan loop of `_invert_matrix` (distance.py
lines 20-41): choose the partial pivot, fail with `SingularMatrix` when its
absolute value is below `PIVOT_TOL`, otherwise swap, normalise the pivot row
and eliminate the column from every other row (skipping rows whose factor is
below the tolerance). -/
noncomputable def elimCol (n : ℕ) (aug : List (List ℝ)) (col : ℕ) :
    Except PyErr (List (List ℝ)) :=
  let pivot_row := argmaxAbs aug col col n
  let pivot := (aug.getD pivot_row []).getD col 0
  if |pivot| < PIVOT_TOL then .error .singularMatrix
  else
    let aug1 := if pivot_row ≠ col then swapRows aug col pivot_row else aug
    let scale := 1 / (aug1.getD col []).getD col 0
    let aug2 := aug1.set col (scaleFirst (2 * n) scale (aug1.getD col []))
    let pivotRowVec := aug2.getD col []
    .ok (aug2.enum.map (fun p =>
      if p.1 = col then p.2
      else
        let factor := p.2.getD col 0
        if |factor| < PIVOT_TOL then p.2
        else subFirst (2 * n) factor pivotRowVec p.2))

/-- The `for col in range(n)` loop of `_invert_matrix`, running `fuel` further
columns starting at column `col`. -/
noncomputable def elimLoop (n : ℕ) : List (List ℝ) → ℕ → ℕ → Except PyErr (List (List ℝ))
  | aug, _, 0 => .ok aug
  | aug, col, fuel + 1 =>
    match elimCol n aug col with
    | .error e => .error e
    | .ok aug' => elimLoop n aug' (col + 1) fuel

/-- The initial augmented matrix `[list(row) + ident for row, ident in
zip(matrix, _identity(n))]`. -/
def augmentInit (m : List (List ℝ)) : List (List ℝ) :=
  (m.zip (_identity m.length)).map (fun p => p.1 ++ p.2)

/-- Embedding of `_invert_matrix` (distance.py lines 13-43): Gauss-Jordan
elimination with partial pivoting over the identity-augmented matrix; an
empty matrix is rejected with `InvalidInput`, a below-tolerance pivot with
`SingularMatrix`; on success the right half of the eliminated augmented
matrix is returned.  The source performs no squareness check. -/
noncomputable def _invert_matrix (matrix : List (List ℝ)) : Except PyErr (List (List ℝ)) :=
  if matrix.length = 0 then .error (.invalidInput "Cannot invert an empty matrix")
  else
    match elimLoop matrix.length (augmentInit matrix) 0 matrix.length with
    | .error e => .error e
    | .ok aug => .ok (aug.map (fun row => row.drop matrix.length))

/-- Embedding of `covariance_matrix` (distance.py lines 46-76): rejects empty
data, zero-length vectors and ragged rows with `InvalidInput`; with fewer
than two rows uses the identity, otherwise the unbiased (n−1 denominator)
sample covariance of the centered rows; either way `regularization` is added
to every diagonal entry. -/
noncomputable def covariance_matrix (rows : List (List ℝ)) (regularization : ℝ := 1e-6) :
    Except PyErr (List (List ℝ)) :=
  if rows = [] then .error (.invalidInput "Cannot compute covariance of empty data")
  else
    let dim := (rows.headD []).length
    if dim = 0 then .error (.invalidInput "Cannot compute covariance of zero-length vectors")
    else if rows.any (fun row => row.length ≠ dim) then
      .error (.invalidInput "All vectors must have the same length")
    else
      let cov :=
        if rows.length < 2 then _identity dim
        else
          let means := (List.range dim).map
            (fun i => (rows.map (fun row => row.getD i 0)).sum / (rows.length : ℝ))
          (List.range dim).map (fun i => (List.range dim).map (fun j =>
            ((rows.map (fun row =>
              (row.getD i 0 - means.getD i 0) * (row.getD j 0 - means.getD j 0))).sum) /
              ((rows.length : ℝ) - 1)))
      .ok (cov.enum.map (fun p =>
        p.2.enum.map (fun q => if p.1 = q.1 then q.2 + regularization else q.2)))

/-- Embedding of `inverse_covariance` (distance.py lines 79-81): invert the
regularized sample covariance. -/
noncomputable def inverse_covariance (rows : List (List ℝ)) (regularization : ℝ := 1e-6) :
    Except PyErr (List (List ℝ)) :=
  match covariance_matrix rows regularization with
  | .error e => .error e
  | .ok cov => _invert_matrix cov

/-- Embedding of `inverse_covariance_for_vectors` (distance.py lines 84-98):
rejects empty data and ragged rows with `InvalidInput`; returns (a copy of)
the constant reference matrix when the dimensionality is the canonical 21,
and otherwise falls back to inverting the regularized sample covariance. -/
noncomputable def inverse_covariance_for_vectors (rows : List (List ℝ))
    (regularization : ℝ := 1e-6) : Except PyErr (List (List ℝ)) :=
  if rows = [] then .error (.invalidInput "Cannot compute inverse covariance of empty data")
  else
    let dim := (rows.headD []).length
    if rows.any (fun row => row.length ≠ dim) then
      .error (.invalidInput "All vectors must have the same length")
    else if dim = FSRS6_RECENCY_DIM then
      .ok (FSRS6_RECENCY_INV_COVARIANCE_21.map (fun row => row.map id))
    else inverse_covariance rows regularization

/-- Modelled from the spec: `get_validated_fsrs6_inverse_covariance`, the
strict reference-covariance selection imported by analyzer.py from
distance.py but absent from the distance.py in the tree.  Per §4.3 of the
spec it fails with `InvalidParams` when the dimensionality is not the
canonical one rather than falling back to sample estimation, and otherwise
returns the constant reference inverse-covariance matrix. -/
noncomputable def get_validated_fsrs6_inverse_covariance (rows : List (List ℝ)) :
    Except PyErr (List (List ℝ)) :=
  if rows ≠ [] ∧ ∀ row ∈ rows, row.length = FSRS6_RECENCY_DIM then
    .ok FSRS6_RECENCY_INV_COVARIANCE_21
  else .error .invalidParams

/-- The pure value computed by `mahalanobis_distance` once its shape checks
have passed (distance.py lines 113-116): `sqrt(max((a-b)ᵗ·M·(a-b), 0))`. -/
noncomputable def mahRaw (left right : List ℝ) (inv_covariance : List (List ℝ)) : ℝ :=
  let dim := left.length
  let delta := (List.range dim).map (fun i => left.getD i 0 - right.getD i 0)
  let transformed := (List.range dim).map (fun i =>
    ((List.range dim).map (fun j => (inv_covariance.getD i []).getD j 0 * delta.getD j 0)).sum)
  let squared := ((List.range dim).map (fun i => delta.getD i 0 * transformed.getD i 0)).sum
  Real.sqrt (max squared 0)

/-- Embedding of `mahalanobis_distance` (distance.py lines 101-116): rejects
vectors of different lengths, then any matrix row whose length differs from
the vectors' length, with `InvalidInput`; note the row count itself is not
checked.  On passing the checks it returns `mahRaw`. -/
noncomputable def mahalanobis_distance (left right : List ℝ)
    (inv_covariance : List (List ℝ)) : Except PyErr ℝ :=
  if left.length ≠ right.length then
    .error (.invalidInput "Input vectors must have the same length")
  else if inv_covariance.any (fun row => row.length ≠ left.length) then
    .error (.invalidInput "Inverse covariance matrix shape does not match vector size")
  else .ok (mahRaw left right inv_covariance)

/-! ### Analyzer (analyzer.py) -/

/-- The `_LOG_FIRST_PARAM_COUNT` constant of analyzer.py. -/
def _LOG_FIRST_PARAM_COUNT : ℕ := 4

/-- The `NOT_FSRS6_VALID_PARAMS_MESSAGE` constant of analyzer.py. -/
def NOT_FSRS6_VALID_PARAMS_MESSAGE : String := "Not FSRS6 valid params"

/-- Embedding of the `FSRSProfile` dataclass of analyzer.py. -/
structure FSRSProfile where
  profile_id : ℤ
  profile_name : String
  weights : List ℝ

instance : Inhabited FSRSProfile := ⟨⟨0, "", []⟩⟩

/-- Embedding of the `DistanceResult` dataclass of analyzer.py. -/
structure DistanceResult where
  profile : FSRSProfile
  nearest_profile_name : Option String
  nearest_distance : Option ℝ
  should_share_preset : Option Bool
  status_message : Option String := none

/-- The `for idx in range(min(log_first_count, len(transformed)))` loop of
`transform_params_for_distance` (analyzer.py lines 100-104), running `fuel`
further iterations starting at index `idx`: fail on a non-positive entry,
otherwise replace it with its natural logarithm. -/
noncomputable def logLoop : List ℝ → ℕ → ℕ → Except PyErr (List ℝ)
  | acc, _, 0 => .ok acc
  | acc, idx, fuel + 1 =>
    if acc.getD idx 0 ≤ 0 then
      .error (.invalidInput "Log transform requires strictly positive first FSRS params")
    else
      logLoop (acc.set idx (Real.log (acc.getD idx 0))) (idx + 1) fuel

/-- Embedding of `transform_params_for_distance` (analyzer.py lines 94-105):
apply the natural logarithm to the first `log_first_count` entries (default
`_LOG_FIRST_PARAM_COUNT = 4`), failing with `InvalidInput` on a non-positive
leading entry. -/
noncomputable def transform_params_for_distance (weights : List ℝ)
    (log_first_count : ℕ := _LOG_FIRST_PARAM_COUNT) : Except PyErr (List ℝ) :=
  logLoop weights 0 (min log_first_count weights.length)

/-- The value `transform_params_for_distance` computes when it succeeds: the
first `n` entries log-transformed, the rest unchanged. -/
noncomputable def logTransform (weights : List ℝ) (n : ℕ) : List ℝ :=
  weights.enum.map (fun p => if p.1 < n then Real.log p.2 else p.2)

/-- Embedding of `is_fsrs6_valid_params` (analyzer.py lines 108-109). -/
def is_fsrs6_valid_params (weights : List ℝ) : Bool :=
  weights.length = FSRS6_RECENCY_DIM

/-- Embedding of `recommend_shared_preset` (analyzer.py lines 112-120):
`none` when there is no nearest distance or the parameter count is not the
canonical dimension, otherwise the strict comparison with the threshold. -/
noncomputable def recommend_shared_preset (parameter_count : ℕ)
    (nearest_distance : Option ℝ) : Option Bool :=
  match nearest_distance with
  | none => none
  | some d =>
    if parameter_count ≠ FSRS6_RECENCY_DIM then none
    else some (if d < FSRS6_RECENCY_MAHALANOBIS_SHARED_PRESET_THRESHOLD then true else false)

/-- The running-nearest update of the inner loop of `analyze_profiles`
(analyzer.py lines 178-180): adopt the candidate when there is no current
nearest or the candidate's distance is strictly smaller. -/
noncomputable def nearestStep (best : Option (String × ℝ)) (cand : String × ℝ) :
    Option (String × ℝ) :=
  match best with
  | none => some cand
  | some q => if cand.2 < q.2 then some cand else some q

/-- The `for other_idx, other in enumerate(valid_profiles)` loop of
`analyze_profiles` (analyzer.py lines 173-180) for the profile at `idx`:
skip the profile itself, compute each Mahalanobis distance (propagating its
failures) and keep the nearest by `nearestStep`. -/
noncomputable def nearestFor (valid_profiles : List FSRSProfile)
    (vectors : List (List ℝ)) (inv_cov : List (List ℝ)) (idx : ℕ) :
    Except PyErr (Option (String × ℝ)) :=
  valid_profiles.enum.foldlM
    (fun best p =>
      if p.1 = idx then .ok best
      else
        match mahalanobis_distance (vectors.getD idx []) (vectors.getD p.1 []) inv_cov with
        | .error e => .error e
        | .ok dist => .ok (nearestStep best (p.2.profile_name, dist)))
    none

/-- The ordering used by both output sorts of analyzer.py:
`key=lambda r: ....profile_name.lower()` under Python's stable sort. -/
def nameLe (a b : FSRSProfile) : Bool :=
  a.profile_name.toLower ≤ b.profile_name.toLower

/-- Embedding of `analyze_profiles` (analyzer.py lines 136-194): invalid
(non-canonical) profiles get a status-flagged empty result; a single valid
profile gets an unflagged empty result; two or more valid profiles are
log-transformed, the validated inverse covariance is obtained, and each
valid profile receives its nearest neighbour (strictly-less updates, input
iteration order) and the recommendation; the whole list is finally sorted
by case-insensitive profile name. -/
noncomputable def analyze_profiles (profiles : List FSRSProfile) :
    Except PyErr (List DistanceResult) :=
  if profiles.isEmpty then .ok []
  else
    let valid_profiles := profiles.filter (fun p => is_fsrs6_valid_params p.weights)
    let invalid_profiles := profiles.filter (fun p => !is_fsrs6_valid_params p.weights)
    let base := invalid_profiles.map (fun p =>
      ({ profile := p,
         nearest_profile_name := none,
         nearest_distance := none,
         should_share_preset := none,
         status_message := some NOT_FSRS6_VALID_PARAMS_MESSAGE } : DistanceResult))
    let branch : Except PyErr (List DistanceResult) :=
      if valid_profiles.length = 1 then
        .ok (base ++ [{ profile := valid_profiles.headD default,
                        nearest_profile_name := none,
                        nearest_distance := none,
                        should_share_preset := none,
                        status_message := none }])
      else if 1 < valid_profiles.length then
        match valid_profiles.mapM (fun p => transform_params_for_distance p.weights) with
        | .error e => .error e
        | .ok vectors =>
          match get_validated_fsrs6_inverse_covariance vectors with
          | .error e => .error e
          | .ok inv_cov =>
            match valid_profiles.enum.mapM (fun p =>
              (match nearestFor valid_profiles vectors inv_cov p.1 with
              | .error e => .error e
              | .ok nb =>
                .ok ({ profile := p.2,
                       nearest_profile_name := nb.map Prod.fst,
                       nearest_distance := nb.map Prod.snd,
                       should_share_preset :=
                         recommend_shared_preset p.2.weights.length (nb.map Prod.snd),
                       status_message := none } : DistanceResult) :
                Except PyErr DistanceResult)) with
            | .error e => .error e
            | .ok rest => .ok (base ++ rest)
      else .ok base
    match branch with
    | .error e => .error e
    | .ok results =>
      .ok (results.mergeSort (fun a b => nameLe a.profile b.profile))

/-- Write one cell of the pairwise matrix (`matrix[i][j] = v`). -/
def setCell (m : List (List (Option ℝ))) (i j : ℕ) (v : Option ℝ) :
    List (List (Option ℝ)) :=
  m.set i ((m.getD i []).set j v)

/-- Read one cell of the pairwise matrix. -/
def getCell (m : List (List (Option ℝ))) (i j : ℕ) : Option ℝ :=
  (m.getD i []).getD j none

/-- The ordered strict-upper-triangle offset pairs visited by the double
loop of `pairwise_distance_matrix` (analyzer.py lines 221-228): `left_offset`
outer, `right_offset` inner, skipping `right_offset <= left_offset`. -/
def upperPairs (k : ℕ) : List (ℕ × ℕ) :=
  (List.range k).flatMap (fun lo =>
    ((List.range k).filter (fun ro => lo < ro)).map (fun ro => (lo, ro)))

/-- Embedding of `pairwise_distance_matrix` (analyzer.py lines 197-230):
profiles sorted by case-insensitive name; an all-`None` N×N matrix; `0.0` on
the diagonal of every canonical profile; and, when at least two canonical
profiles exist, the transformed vectors' Mahalanobis distance written into
both symmetric cells of every canonical pair. -/
noncomputable def pairwise_distance_matrix (profiles : List FSRSProfile) :
    Except PyErr (List FSRSProfile × List (List (Option ℝ))) :=
  let sorted_profiles := profiles.mergeSort nameLe
  if sorted_profiles.isEmpty then .ok ([], [])
  else
    let n := sorted_profiles.length
    let base : List (List (Option ℝ)) := List.replicate n (List.replicate n none)
    let valid_indexes := (sorted_profiles.enum.filter
      (fun p => is_fsrs6_valid_params p.2.weights)).map Prod.fst
    let withDiag := valid_indexes.foldl (fun m i => setCell m i i (some 0)) base
    if 2 ≤ valid_indexes.length then
      match valid_indexes.mapM (fun i =>
          transform_params_for_distance (sorted_profiles.getD i default).weights) with
      | .error e => .error e
      | .ok vectors =>
        match get_validated_fsrs6_inverse_covariance vectors with
        | .error e => .error e
        | .ok inv_cov =>
          match (upperPairs valid_indexes.length).foldlM
            (fun m p =>
              (match mahalanobis_distance (vectors.getD p.1 []) (vectors.getD p.2 [])
                  inv_cov with
              | .error e => .error e
              | .ok dist =>
                .ok (setCell
                  (setCell m (valid_indexes.getD p.1 0) (valid_indexes.getD p.2 0)
                    (some dist))
                  (valid_indexes.getD p.2 0) (valid_indexes.getD p.1 0) (some dist)) :
                Except PyErr (List (List (Option ℝ)))))
            withDiag with
          | .error e => .error e
          | .ok final => .ok (sorted_profiles, final)
    else .ok (sorted_profiles, withDiag)

/-! ### Basic helper lemmas -/

lemma getD_map_range {α : Type} {f : ℕ → α} {n i : ℕ} (h : i < n) (d : α) :
    ((List.range n).map f).getD i d = f i := by
  rw [List.getD_eq_getElem?_getD, List.getElem?_map, List.getElem?_range h]
  rfl

lemma sum_map_range {M : Type} [AddCommMonoid M] (f : ℕ → M) (n : ℕ) :
    ((List.range n).map f).sum = ∑ i ∈ Finset.range n, f i := by
  induction n with
  | zero => simp
  | succ n ih =>
    rw [List.range_succ, List.map_append, List.sum_append, Finset.sum_range_succ, ih]
    simp

/-- `mahRaw` as a closed quadratic form over `Finset` sums. -/
lemma mahRaw_eq (a b : List ℝ) (M : List (List ℝ)) :
    mahRaw a b M = Real.sqrt (max (∑ i ∈ Finset.range a.length,
      (a.getD i 0 - b.getD i 0) * ∑ j ∈ Finset.range a.length,
        (M.getD i []).getD j 0 * (a.getD j 0 - b.getD j 0)) 0) := by
  simp only [mahRaw]
  congr 1
  congr 1
  rw [sum_map_range]
  refine Finset.sum_congr rfl (fun i hi => ?_)
  have hi' := Finset.mem_range.mp hi
  rw [getD_map_range hi', getD_map_range hi']
  congr 1
  rw [sum_map_range]
  refine Finset.sum_congr rfl (fun j hj => ?_)
  have hj' := Finset.mem_range.mp hj
  rw [getD_map_range hj']

/-- The quadratic form of two identical vectors is exactly zero, hence so is
the distance. -/
lemma mahRaw_self (a : List ℝ) (M : List (List ℝ)) : mahRaw a a M = 0 := by
  rw [mahRaw_eq]
  have h : (∑ i ∈ Finset.range a.length,
      (a.getD i 0 - a.getD i 0) * ∑ j ∈ Finset.range a.length,
        (M.getD i []).getD j 0 * (a.getD j 0 - a.getD j 0)) = 0 := by
    refine Finset.sum_eq_zero (fun i _ => ?_)
    simp
  rw [h, max_self, Real.sqrt_zero]

/-- The quadratic form, hence the distance, is symmetric in its two vectors
(for any matrix, symmetric or not). -/
lemma mahRaw_symm (a b : List ℝ) (M : List (List ℝ)) (h : a.length = b.length) :
    mahRaw a b M = mahRaw b a M := by
  rw [mahRaw_eq, mahRaw_eq, ← h]
  congr 2
  refine Finset.sum_congr rfl (fun i _ => ?_)
  have hinner : (∑ j ∈ Finset.range a.length,
      (M.getD i []).getD j 0 * (b.getD j 0 - a.getD j 0)) =
      -(∑ j ∈ Finset.range a.length,
        (M.getD i []).getD j 0 * (a.getD j 0 - b.getD j 0)) := by
    rw [← Finset.sum_neg_distrib]
    exact Finset.sum_congr rfl (fun j _ => by ring)
  rw [hinner]
  ring

/-! ### C1: the recommendation rule -/

/-- C1: `recommend_shared_preset` returns `none` exactly when there is no
nearest distance or the parameter count is not the canonical dimension 21;
otherwise it returns the strict comparison `nearest_distance < THRESHOLD`,
so that `recommend_shared_preset 21 3.79 = true` and
`recommend_shared_preset 21 3.8 = false`. -/
theorem C1_recommend_shared_preset_spec (pc : ℕ) (d : Option ℝ) :
    (recommend_shared_preset pc d = none ↔ (d = none ∨ pc ≠ 21)) ∧
    (∀ x : ℝ, pc = 21 →
      ((recommend_shared_preset pc (some x) = some true ↔
        x < FSRS6_RECENCY_MAHALANOBIS_SHARED_PRESET_THRESHOLD) ∧
      (recommend_shared_preset pc (some x) = some false ↔
        FSRS6_RECENCY_MAHALANOBIS_SHARED_PRESET_THRESHOLD ≤ x))) ∧
    recommend_shared_preset 21 (some 3.79) = some true ∧
    recommend_shared_preset 21 (some 3.8) = some false := by
  have hval : ∀ x : ℝ, recommend_shared_preset 21 (some x) =
      some (if x < FSRS6_RECENCY_MAHALANOBIS_SHARED_PRESET_THRESHOLD then true else false) := by
    intro x
    simp [recommend_shared_preset, FSRS6_RECENCY_DIM]
  refine ⟨?_, ?_, ?_, ?_⟩
  · cases d with
    | none => simp [recommend_shared_preset]
    | some x =>
      by_cases hpc : pc = 21
      · subst hpc
        rw [hval x]
        simp
      · simp [recommend_shared_preset, FSRS6_RECENCY_DIM, hpc]
  · intro x hpc
    subst hpc
    rw [hval x]
    by_cases hx : x < FSRS6_RECENCY_MAHALANOBIS_SHARED_PRESET_THRESHOLD
    · constructor
      · simp [hx]
      · simp [hx, not_le.mpr hx]
    · constructor
      · simp [hx]
      · simp [hx, not_lt.mp hx]
  · rw [hval]
    rw [if_pos (by rw [FSRS6_RECENCY_MAHALANOBIS_SHARED_PRESET_THRESHOLD]; norm_num)]
  · rw [hval]
    rw [if_neg (by rw [FSRS6_RECENCY_MAHALANOBIS_SHARED_PRESET_THRESHOLD]; norm_num)]

/-- Witness for C1 at concrete inputs: the threshold comparison holds with
a definite boolean on both sides of the boundary. -/
theorem C1_recommend_shared_preset_witness :
    recommend_shared_preset 21 (some 3.79) = some true ∧
    recommend_shared_preset 21 (some 3.8) = some false ∧
    recommend_shared_preset 21 (some 2) = some true := by
  refine ⟨(C1_recommend_shared_preset_spec 21 (some 3.79)).2.2.1,
    (C1_recommend_shared_preset_spec 21 (some 3.8)).2.2.2,
    ((C1_recommend_shared_preset_spec 21 (some 2)).2.1 2 rfl).1.mpr ?_⟩
  rw [FSRS6_RECENCY_MAHALANOBIS_SHARED_PRESET_THRESHOLD]
  norm_num

/-! ### C4: Mahalanobis identity, symmetry, non-negativity -/

/-- C4: with a matrix whose rows match the vector's length,
`mahalanobis_distance a a M` is exactly `0`; for equal-length vectors it is
symmetric in the two vectors; and any returned value is
`sqrt(max((a-b)ᵗ·M·(a-b), 0))` and hence non-negative. -/
theorem C4_mahalanobis_distance_spec (a b : List ℝ) (M : List (List ℝ)) :
    ((∀ row ∈ M, row.length = a.length) → mahalanobis_distance a a M = .ok 0) ∧
    (a.length = b.length → mahalanobis_distance a b M = mahalanobis_distance b a M) ∧
    (∀ r : ℝ, mahalanobis_distance a b M = .ok r →
      r = Real.sqrt (max (∑ i ∈ Finset.range a.length,
        (a.getD i 0 - b.getD i 0) * ∑ j ∈ Finset.range a.length,
          (M.getD i []).getD j 0 * (a.getD j 0 - b.getD j 0)) 0) ∧ 0 ≤ r) := by
  refine ⟨?_, ?_, ?_⟩
  · intro hrows
    have hany : ¬ ((M.any fun row => decide (row.length ≠ a.length)) = true) := by
      simp only [List.any_eq_true, not_exists]
      intro row
      simp only [not_and, decide_eq_true_eq]
      intro hrow
      simp [hrows row hrow]
    have hlen : ¬ (a.length ≠ a.length) := by simp
    unfold mahalanobis_distance
    rw [if_neg hlen, if_neg hany]
    exact congrArg Except.ok (mahRaw_self a M)
  · intro hab
    have h1 : ¬ (a.length ≠ b.length) := by simp [hab]
    have h2 : ¬ (b.length ≠ a.length) := by simp [hab]
    unfold mahalanobis_distance
    rw [if_neg h1, if_neg h2]
    simp only [hab]
    by_cases hc : (M.any fun row => decide (row.length ≠ b.length)) = true
    · rw [if_pos hc, if_pos hc]
    · rw [if_neg hc, if_neg hc]
      exact congrArg Except.ok (mahRaw_symm a b M hab)
  · intro r hr
    unfold mahalanobis_distance at hr
    by_cases hlen : a.length ≠ b.length
    · rw [if_pos hlen] at hr
      cases hr
    · rw [if_neg hlen] at hr
      by_cases hany : (M.any fun row => decide (row.length ≠ a.length)) = true
      · rw [if_pos hany] at hr
        cases hr
      · rw [if_neg hany] at hr
        injection hr with hr'
        subst hr'
        exact ⟨mahRaw_eq a b M, Real.sqrt_nonneg _⟩

/-- Witness for C4 at concrete inputs: identity vector distance is zero, a
concrete symmetric pair, and non-negativity of a returned value. -/
theorem C4_mahalanobis_distance_witness :
    mahalanobis_distance [(1 : ℝ), 2] [1, 2] [[1, 0], [0, 1]] = .ok 0 ∧
    mahalanobis_distance [(1 : ℝ), 2] [3, 4] [[1, 0], [0, 1]] =
      mahalanobis_distance [(3 : ℝ), 4] [1, 2] [[1, 0], [0, 1]] := by
  refine ⟨(C4_mahalanobis_distance_spec [(1 : ℝ), 2] [1, 2] [[1, 0], [0, 1]]).1 ?_,
    (C4_mahalanobis_distance_spec [(1 : ℝ), 2] [3, 4] [[1, 0], [0, 1]]).2.1 ?_⟩
  · intro row hrow
    simp only [List.mem_cons, List.not_mem_nil, or_false] at hrow
    rcases hrow with h | h <;> simp [h]
  · simp

/-! ### C7: dimension checks of `mahalanobis_distance` -/

/-- Counterexample to C7: a 3×2 inverse-covariance matrix is not 2×2, yet
`mahalanobis_distance` on two 2-vectors accepts it and returns a value
(its row-length check passes because every row has the vectors' length;
the row count is never compared). -/
theorem C7_counterexample :
    mahalanobis_distance [(0 : ℝ), 0] [0, 0] [[1, 0], [0, 1], [0, 0]] = .ok 0 := by
  have hlen : ¬ (([(0 : ℝ), 0] : List ℝ).length ≠ ([0, 0] : List ℝ).length) := by simp
  have hany : ¬ ((([[(1 : ℝ), 0], [0, 1], [0, 0]] : List (List ℝ)).any
      fun row => decide (row.length ≠ ([(0 : ℝ), 0] : List ℝ).length)) = true) := by
    simp
  unfold mahalanobis_distance
  rw [if_neg hlen, if_neg hany]
  exact congrArg Except.ok (mahRaw_self _ _)

/-- C7 (amended): `mahalanobis_distance` fails with `InvalidInput` exactly
when the two vectors differ in length or some row of the matrix has a length
different from the vectors'; the row count of the matrix is not checked.
When the vectors agree in length, every row matches it and the matrix has at
least as many rows as the dimension (so the source indexes in bounds), a
value is returned without failing. -/
theorem C7_mahalanobis_distance_checks (a b : List ℝ) (M : List (List ℝ)) :
    ((∃ msg, mahalanobis_distance a b M = .error (.invalidInput msg)) ↔
      (a.length ≠ b.length ∨ ∃ row ∈ M, row.length ≠ a.length)) ∧
    (a.length = b.length → (∀ row ∈ M, row.length = a.length) → a.length ≤ M.length →
      mahalanobis_distance a b M = .ok (mahRaw a b M)) := by
  constructor
  · constructor
    · intro ⟨msg, hmsg⟩
      unfold mahalanobis_distance at hmsg
      by_cases h1 : a.length ≠ b.length
      · exact Or.inl h1
      · rw [if_neg h1] at hmsg
        by_cases h2 : (M.any fun row => decide (row.length ≠ a.length)) = true
        · refine Or.inr ?_
          simpa using h2
        · rw [if_neg h2] at hmsg
          cases hmsg
    · intro h
      unfold mahalanobis_distance
      rcases h with h1 | h2
      · exact ⟨"Input vectors must have the same length", by rw [if_pos h1]⟩
      · by_cases h1 : a.length ≠ b.length
        · exact ⟨"Input vectors must have the same length", by rw [if_pos h1]⟩
        · refine ⟨"Inverse covariance matrix shape does not match vector size", ?_⟩
          rw [if_neg h1, if_pos (by simpa using h2)]
  · intro h1 h2 _
    have h1' : ¬ (a.length ≠ b.length) := by simp [h1]
    have hany : ¬ ((M.any fun row => decide (row.length ≠ a.length)) = true) := by
      simp only [List.any_eq_true, not_exists]
      intro row
      simp only [not_and, decide_eq_true_eq]
      intro hrow
      simp [h2 row hrow]
    unfold mahalanobis_distance
    rw [if_neg h1', if_neg hany]

/-- Witness for C7 (amended) at concrete inputs. -/
theorem C7_mahalanobis_distance_checks_witness :
    mahalanobis_distance [(1 : ℝ), 2] [3, 4] [[1, 0], [0, 1]] =
      .ok (mahRaw [(1 : ℝ), 2] [3, 4] [[1, 0], [0, 1]]) := by
  refine (C7_mahalanobis_distance_checks [(1 : ℝ), 2] [3, 4] [[1, 0], [0, 1]]).2
    (by simp) ?_ (by simp)
  intro row hrow
  simp only [List.mem_cons, List.not_mem_nil, or_false] at hrow
  rcases hrow with h | h <;> simp [h]

/-! ### C9: reference-covariance selection -/

/-- C9: on a non-empty list of equal-length vectors,
`inverse_covariance_for_vectors` returns the constant reference
inverse-covariance matrix unchanged whenever the dimensionality is the
canonical 21, and for every other dimensionality returns the result of
inverting the regularized sample covariance of the vectors. -/
theorem C9_inverse_covariance_for_vectors_spec (rows : List (List ℝ))
    (hne : rows ≠ [])
    (hlen : ∀ row ∈ rows, row.length = (rows.headD []).length) :
    ((rows.headD []).length = FSRS6_RECENCY_DIM →
      inverse_covariance_for_vectors rows = .ok FSRS6_RECENCY_INV_COVARIANCE_21) ∧
    ((rows.headD []).length ≠ FSRS6_RECENCY_DIM →
      inverse_covariance_for_vectors rows = inverse_covariance rows) := by
  have hany : ¬ ((rows.any fun row =>
      decide (row.length ≠ (rows.headD []).length)) = true) := by
    simp only [List.any_eq_true, not_exists]
    intro row
    simp only [not_and, decide_eq_true_eq]
    intro hrow
    simp [hlen row hrow]
  constructor
  · intro hdim
    unfold inverse_covariance_for_vectors
    rw [if_neg hne, if_neg hany, if_pos hdim]
    simp
  · intro hdim
    unfold inverse_covariance_for_vectors
    rw [if_neg hne, if_neg hany, if_neg hdim]

/-- Witness for C9: a single canonical-dimension vector takes the reference
branch; a pair of 2-vectors takes the estimation branch. -/
theorem C9_inverse_covariance_for_vectors_witness :
    inverse_covariance_for_vectors [List.replicate 21 (1 : ℝ)] =
      .ok FSRS6_RECENCY_INV_COVARIANCE_21 ∧
    inverse_covariance_for_vectors [[(1 : ℝ), 2], [2, 4]] =
      inverse_covariance [[(1 : ℝ), 2], [2, 4]] := by
  constructor
  · exact (C9_inverse_covariance_for_vectors_spec [List.replicate 21 (1 : ℝ)]
      (by simp) (by simp)).1 (by simp [FSRS6_RECENCY_DIM])
  · refine (C9_inverse_covariance_for_vectors_spec [[(1 : ℝ), 2], [2, 4]]
      (by simp) ?_).2 (by simp [FSRS6_RECENCY_DIM])
    intro row hrow
    simp only [List.mem_cons, List.not_mem_nil, or_false] at hrow
    rcases hrow with h | h <;> simp [h]

/-! ### C6: the log transform -/

lemma getD_set_ne {α : Type} (l : List α) {i k : ℕ} (h : i ≠ k) (a d : α) :
    (l.set i a).getD k d = l.getD k d := by
  rw [List.getD_eq_getElem?_getD, List.getD_eq_getElem?_getD, List.getElem?_set,
    if_neg h]

lemma getD_set_self {α : Type} (l : List α) {i : ℕ} (h : i < l.length) (a d : α) :
    (l.set i a).getD i d = a := by
  rw [List.getD_eq_getElem?_getD, List.getElem?_set, if_pos rfl, if_pos h]
  rfl

/-- `logLoop` fails (necessarily with the strict-positivity message) exactly
when one of the entries it is due to visit is non-positive. -/
lemma logLoop_error_iff : ∀ (fuel idx : ℕ) (acc : List ℝ),
    logLoop acc idx fuel =
      .error (.invalidInput "Log transform requires strictly positive first FSRS params") ↔
      ∃ k, idx ≤ k ∧ k < idx + fuel ∧ acc.getD k 0 ≤ 0 := by
  intro fuel
  induction fuel with
  | zero =>
    intro idx acc
    simp only [logLoop]
    constructor
    · intro h
      cases h
    · intro ⟨k, hk1, hk2, _⟩
      omega
  | succ fuel ih =>
    intro idx acc
    by_cases h : acc.getD idx 0 ≤ 0
    · simp only [logLoop, if_pos h]
      exact ⟨fun _ => ⟨idx, le_refl idx, by omega, h⟩, fun _ => trivial⟩
    · simp only [logLoop, if_neg h]
      rw [ih (idx + 1) (acc.set idx (Real.log (acc.getD idx 0)))]
      constructor
      · intro ⟨k, hk1, hk2, hbad⟩
        refine ⟨k, by omega, by omega, ?_⟩
        rwa [getD_set_ne acc (by omega)] at hbad
      · intro ⟨k, hk1, hk2, hbad⟩
        have hki : k ≠ idx := fun he => h (he ▸ hbad)
        exact ⟨k, by omega, by omega, by rwa [getD_set_ne acc (Ne.symm hki)]⟩

/-- When every entry `logLoop` is due to visit is positive, it succeeds and
returns the list with exactly those entries replaced by their logarithms. -/
lemma logLoop_ok : ∀ (fuel idx : ℕ) (acc : List ℝ),
    idx + fuel ≤ acc.length →
    (∀ k, idx ≤ k → k < idx + fuel → 0 < acc.getD k 0) →
    ∃ out, logLoop acc idx fuel = .ok out ∧ out.length = acc.length ∧
      (∀ k, k < idx → out.getD k 0 = acc.getD k 0) ∧
      (∀ k, idx ≤ k → k < idx + fuel → out.getD k 0 = Real.log (acc.getD k 0)) ∧
      (∀ k, idx + fuel ≤ k → out.getD k 0 = acc.getD k 0) := by
  intro fuel
  induction fuel with
  | zero =>
    intro idx acc _ _
    exact ⟨acc, rfl, rfl, fun _ _ => rfl, fun k hk1 hk2 => absurd hk2 (by omega),
      fun _ _ => rfl⟩
  | succ fuel ih =>
    intro idx acc hlen hpos
    have hv : 0 < acc.getD idx 0 := hpos idx (le_refl idx) (by omega)
    have hnv : ¬ (acc.getD idx 0 ≤ 0) := not_le.mpr hv
    have hidx : idx < acc.length := by omega
    set acc' := acc.set idx (Real.log (acc.getD idx 0)) with hacc'
    have hlen' : (idx + 1) + fuel ≤ acc'.length := by
      rw [hacc', List.length_set]; omega
    have hpos' : ∀ k, idx + 1 ≤ k → k < (idx + 1) + fuel → 0 < acc'.getD k 0 := by
      intro k hk1 hk2
      rw [hacc', getD_set_ne acc (by omega)]
      exact hpos k (by omega) (by omega)
    obtain ⟨out, hout, houtlen, hlow, hmid, hhigh⟩ := ih (idx + 1) acc' hlen' hpos'
    refine ⟨out, ?_, ?_, ?_, ?_, ?_⟩
    · simp only [logLoop, if_neg hnv]
      exact hout
    · rw [houtlen, hacc', List.length_set]
    · intro k hk
      rw [hlow k (by omega), hacc', getD_set_ne acc (by omega)]
    · intro k hk1 hk2
      by_cases hke : k = idx
      · subst hke
        rw [hlow k (by omega), hacc', getD_set_self acc hidx]
      · rw [hmid k (by omega) (by omega), hacc', getD_set_ne acc (Ne.symm hke)]
    · intro k hk
      rw [hhigh k (by omega), hacc', getD_set_ne acc (by omega)]

/-- C6: for every weight vector and every `log_first_count` (default 4),
`transform_params_for_distance` fails with `InvalidInput` and the
strict-positivity message exactly when one of the first
`min log_first_count weights.length` entries is ≤ 0; otherwise it succeeds,
the result applies the natural logarithm to exactly those leading entries
and leaves every later entry unchanged. -/
theorem C6_transform_params_for_distance_spec (w : List ℝ) (n : ℕ) :
    (transform_params_for_distance w n =
        .error (.invalidInput "Log transform requires strictly positive first FSRS params") ↔
      ∃ i, i < min n w.length ∧ w.getD i 0 ≤ 0) ∧
    ((∀ i, i < min n w.length → 0 < w.getD i 0) →
      ∃ out, transform_params_for_distance w n = .ok out ∧
        out.length = w.length ∧
        (∀ i, i < min n w.length → out.getD i 0 = Real.log (w.getD i 0)) ∧
        (∀ i, min n w.length ≤ i → out.getD i 0 = w.getD i 0)) ∧
    transform_params_for_distance w = transform_params_for_distance w 4 := by
  refine ⟨?_, ?_, rfl⟩
  · unfold transform_params_for_distance
    rw [logLoop_error_iff]
    constructor
    · intro ⟨k, _, hk2, hbad⟩
      exact ⟨k, by omega, hbad⟩
    · intro ⟨k, hk1, hbad⟩
      exact ⟨k, by omega, by omega, hbad⟩
  · intro hpos
    obtain ⟨out, hout, houtlen, _, hmid, hhigh⟩ :=
      logLoop_ok (min n w.length) 0 w (by omega) (fun k _ hk2 => hpos k (by omega))
    exact ⟨out, hout, houtlen, fun i hi => hmid i (by omega) (by omega),
      fun i hi => hhigh i (by omega)⟩

/-- Witness for C6: a strictly positive vector is log-transformed in its
first four entries; a vector with a non-positive leading entry fails. -/
theorem C6_transform_params_for_distance_witness :
    (∃ out, transform_params_for_distance [(1 : ℝ), 1, 1, 1, 7] 4 = .ok out ∧
      out.length = 5 ∧ out.getD 4 0 = 7) ∧
    transform_params_for_distance [(0 : ℝ), 2, 3, 4, 5] 4 =
      .error (.invalidInput "Log transform requires strictly positive first FSRS params") := by
  constructor
  · have hpos : ∀ i, i < min 4 ([(1 : ℝ), 1, 1, 1, 7] : List ℝ).length →
        0 < ([(1 : ℝ), 1, 1, 1, 7] : List ℝ).getD i 0 := by
      intro i hi
      simp only [List.length_cons, List.length_nil] at hi
      have hi' : i < 4 := by omega
      interval_cases i <;> norm_num
    obtain ⟨out, hout, hlen, _, hhigh⟩ :=
      (C6_transform_params_for_distance_spec [(1 : ℝ), 1, 1, 1, 7] 4).2.1 hpos
    refine ⟨out, hout, by simpa using hlen, ?_⟩
    have h4 := hhigh 4 (by simp)
    simpa using h4
  · refine ((C6_transform_params_for_distance_spec [(0 : ℝ), 2, 3, 4, 5] 4).1).mpr ?_
    exact ⟨0, by simp, by norm_num⟩

/-! ### C8: Gauss-Jordan inversion -/

/-- The failure condition of one elimination column: the partial-pivot row
chosen for maximal absolute value in column `c` has absolute pivot below
the tolerance. -/
noncomputable def pivotBadAt (n : ℕ) (st : List (List ℝ)) (c : ℕ) : Prop :=
  |(st.getD (argmaxAbs st c c n) []).getD c 0| < PIVOT_TOL

lemma elimCol_error_iff (n : ℕ) (aug : List (List ℝ)) (col : ℕ) (e : PyErr) :
    elimCol n aug col = .error e ↔ e = .singularMatrix ∧ pivotBadAt n aug col := by
  unfold elimCol pivotBadAt
  by_cases hbad : |(aug.getD (argmaxAbs aug col col n) []).getD col 0| < PIVOT_TOL
  · rw [if_pos hbad]
    constructor
    · intro h
      injection h with h'
      exact ⟨h'.symm ▸ rfl, hbad⟩
    · intro ⟨he, _⟩
      rw [he]
  · rw [if_neg hbad]
    constructor
    · intro h
      cases h
    · intro ⟨_, hb⟩
      exact absurd hb hbad

lemma elimCol_ok_of_good (n : ℕ) (aug : List (List ℝ)) (col : ℕ)
    (h : ¬ pivotBadAt n aug col) : ∃ st, elimCol n aug col = .ok st := by
  unfold elimCol
  unfold pivotBadAt at h
  rw [if_neg h]
  exact ⟨_, rfl⟩

lemma elimLoop_error_kind (n : ℕ) : ∀ (fuel col : ℕ) (aug : List (List ℝ)) (e : PyErr),
    elimLoop n aug col fuel = .error e → e = .singularMatrix := by
  intro fuel
  induction fuel with
  | zero =>
    intro col aug e h
    cases h
  | succ fuel ih =>
    intro col aug e h
    unfold elimLoop at h
    cases hc : elimCol n aug col with
    | error e' =>
      rw [hc] at h
      injection h with h'
      exact h' ▸ ((elimCol_error_iff n aug col e').mp hc).1
    | ok aug' =>
      rw [hc] at h
      exact ih (col + 1) aug' e h

/-- `elimLoop` fails (necessarily with `singularMatrix`) exactly when some
column it is due to process has a bad pivot in the state reached after the
previous columns succeeded. -/
lemma elimLoop_singular_iff (n : ℕ) : ∀ (fuel col : ℕ) (aug : List (List ℝ)),
    elimLoop n aug col fuel = .error .singularMatrix ↔
      ∃ j, j < fuel ∧ ∃ st, elimLoop n aug col j = .ok st ∧ pivotBadAt n st (col + j) := by
  intro fuel
  induction fuel with
  | zero =>
    intro col aug
    constructor
    · intro h
      cases h
    · intro ⟨j, hj, _⟩
      omega
  | succ fuel ih =>
    intro col aug
    constructor
    · intro h
      unfold elimLoop at h
      cases hc : elimCol n aug col with
      | error e' =>
        rw [hc] at h
        obtain ⟨_, hbad⟩ := (elimCol_error_iff n aug col e').mp hc
        exact ⟨0, by omega, aug, rfl, by simpa using hbad⟩
      | ok aug' =>
        rw [hc] at h
        obtain ⟨j, hj, st, hst, hbad⟩ := (ih (col + 1) aug').mp h
        refine ⟨j + 1, by omega, st, ?_, by rw [show col + (j + 1) = col + 1 + j by omega]; exact hbad⟩
        show elimLoop n aug col (j + 1) = .ok st
        unfold elimLoop
        rw [hc]
        exact hst
    · intro ⟨j, hj, st, hst, hbad⟩
      cases j with
      | zero =>
        have hst' : aug = st := by
          simpa [elimLoop] using hst
        subst hst'
        unfold elimLoop
        have hbad' : pivotBadAt n aug col := by simpa using hbad
        have : elimCol n aug col = .error .singularMatrix :=
          (elimCol_error_iff n aug col .singularMatrix).mpr ⟨rfl, hbad'⟩
        rw [this]
      | succ j =>
        unfold elimLoop at hst ⊢
        cases hc : elimCol n aug col with
        | error e' =>
          rw [hc] at hst
          exact Except.noConfusion
            (show (Except.error e' : Except PyErr (List (List ℝ))) = .ok st from hst)
        | ok aug' =>
          rw [hc] at hst
          have hst' : elimLoop n aug' (col + 1) j = .ok st := hst
          show elimLoop n aug' (col + 1) fuel = Except.error PyErr.singularMatrix
          exact (ih (col + 1) aug').mpr
            ⟨j, by omega, st, hst',
              by rw [show col + 1 + j = col + (j + 1) by omega]; exact hbad⟩

/-- Counterexample to C8: the non-square, non-empty matrix `[[1, 0]]` is not
rejected with `InvalidInput` — the source never checks squareness — and
inversion "succeeds", returning `[[0, 1]]`. -/
theorem C8_counterexample :
    _invert_matrix [[(1 : ℝ), 0]] = .ok [[0, 1]] := by
  have hlen : ¬ (([[(1 : ℝ), 0]] : List (List ℝ)).length = 0) := by simp
  have haug : augmentInit [[(1 : ℝ), 0]] = [[1, 0, 1]] := by
    simp [augmentInit, _identity, List.range_succ]
  have hargmax : argmaxAbs [[(1 : ℝ), 0, 1]] 0 0 1 = 0 := by
    simp [argmaxAbs]
  have hpivot : ¬ (|(([[(1 : ℝ), 0, 1]] : List (List ℝ)).getD
      (argmaxAbs [[(1 : ℝ), 0, 1]] 0 0 1) []).getD 0 0| < PIVOT_TOL) := by
    rw [hargmax]
    simp only [List.getD]
    norm_num [PIVOT_TOL]
  have hcol : elimCol 1 [[(1 : ℝ), 0, 1]] 0 = .ok [[1, 0, 1]] := by
    unfold elimCol
    rw [if_neg hpivot]
    rw [if_neg (by simp [hargmax])]
    norm_num [scaleFirst, List.enum, List.enumFrom]
  unfold _invert_matrix
  rw [if_neg hlen]
  simp only [haug, List.length_cons, List.length_nil]
  have hloop : elimLoop 1 [[(1 : ℝ), 0, 1]] 0 1 = .ok [[1, 0, 1]] := by
    unfold elimLoop
    rw [hcol]
    rfl
  rw [hloop]
  simp

/-- C8 (amended): on square input, `_invert_matrix` fails with
`InvalidInput` exactly on the empty matrix — squareness itself is never
checked, so a non-square matrix is not rejected with `InvalidInput` (see the
counterexample) — and on square non-empty input it fails with
`SingularMatrix` exactly when, at some column of the Gauss-Jordan
elimination, the partial-pivot row chosen for maximal absolute value has
absolute pivot below the fixed tolerance `1e-15` (this is the only way
singularity is detected), and otherwise returns the right half of the
eliminated augmented matrix. -/
theorem C8_invert_matrix_spec (m : List (List ℝ))
    (hsq : ∀ row ∈ m, row.length = m.length) :
    (_invert_matrix m = .error (.invalidInput "Cannot invert an empty matrix") ↔ m = []) ∧
    (m ≠ [] →
      ((_invert_matrix m = .error .singularMatrix) ↔
        ∃ j, j < m.length ∧ ∃ st, elimLoop m.length (augmentInit m) 0 j = .ok st ∧
          pivotBadAt m.length st j) ∧
      (∀ r, _invert_matrix m = .ok r ↔
        ∃ st, elimLoop m.length (augmentInit m) 0 m.length = .ok st ∧
          r = st.map (fun row => row.drop m.length))) := by
  constructor
  · constructor
    · intro h
      by_cases hm : m = []
      · exact hm
      · exfalso
        unfold _invert_matrix at h
        rw [if_neg (by simpa using hm)] at h
        cases hl : elimLoop m.length (augmentInit m) 0 m.length with
        | error e =>
          rw [hl] at h
          injection h with h'
          have := elimLoop_error_kind m.length m.length 0 (augmentInit m) e hl
          rw [this] at h'
          cases h'
        | ok st =>
          rw [hl] at h
          cases h
    · intro hm
      subst hm
      unfold _invert_matrix
      rw [if_pos (by simp)]
  · intro hm
    have hm' : ¬ (m.length = 0) := by simpa using hm
    constructor
    · constructor
      · intro h
        unfold _invert_matrix at h
        rw [if_neg hm'] at h
        cases hl : elimLoop m.length (augmentInit m) 0 m.length with
        | error e =>
          rw [hl] at h
          injection h with h'
          rw [h'] at hl
          obtain ⟨j, hj, st, hst, hbad⟩ :=
            (elimLoop_singular_iff m.length m.length 0 (augmentInit m)).mp hl
          exact ⟨j, hj, st, hst, by simpa using hbad⟩
        | ok st =>
          rw [hl] at h
          cases h
      · intro ⟨j, hj, st, hst, hbad⟩
        have hl : elimLoop m.length (augmentInit m) 0 m.length = .error .singularMatrix :=
          (elimLoop_singular_iff m.length m.length 0 (augmentInit m)).mpr
            ⟨j, hj, st, hst, by simpa using hbad⟩
        unfold _invert_matrix
        rw [if_neg hm', hl]
    · intro r
      unfold _invert_matrix
      rw [if_neg hm']
      cases hl : elimLoop m.length (augmentInit m) 0 m.length with
      | error e =>
        constructor
        · intro h
          cases h
        · intro ⟨st, hst, _⟩
          exact Except.noConfusion hst
      | ok st =>
        constructor
        · intro h
          injection h with h'
          exact ⟨st, rfl, h'.symm⟩
        · intro ⟨st', hst', hr⟩
          injection hst' with he
          subst he
          rw [hr]

/-- Witness for C8 (amended) at a concrete square non-empty input. -/
theorem C8_invert_matrix_spec_witness :
    (_invert_matrix [[(2 : ℝ)]] = .error (.invalidInput "Cannot invert an empty matrix") ↔
      ([[(2 : ℝ)]] : List (List ℝ)) = []) ∧
    ((_invert_matrix [[(2 : ℝ)]] = .error .singularMatrix) ↔
      ∃ j, j < 1 ∧ ∃ st, elimLoop 1 (augmentInit [[(2 : ℝ)]]) 0 j = .ok st ∧
        pivotBadAt 1 st j) := by
  have hsq : ∀ row ∈ ([[(2 : ℝ)]] : List (List ℝ)),
      row.length = ([[(2 : ℝ)]] : List (List ℝ)).length := by
    intro row hrow
    simp only [List.mem_cons, List.not_mem_nil, or_false] at hrow
    rw [hrow]
    rfl
  have h := C8_invert_matrix_spec [[(2 : ℝ)]] hsq
  have h2 := h.2 (by simp)
  exact ⟨h.1, by simpa using h2.1⟩

/-! ### Analyzer support: success characterization of the pipeline -/

lemma mapM_ok_of_all {α β : Type} (f : α → Except PyErr β) (g : α → β) :
    ∀ (l : List α), (∀ a ∈ l, f a = .ok (g a)) → l.mapM f = .ok (l.map g) := by
  intro l
  induction l with
  | nil => intro _; rfl
  | cons a l ih =>
    intro h
    rw [List.mapM_cons, h a (by simp), ih (fun x hx => h x (by simp [hx]))]
    rfl

lemma getD_map {α β : Type} (f : α → β) (l : List α) {i : ℕ} (h : i < l.length)
    (d : β) (d' : α) : (l.map f).getD i d = f (l.getD i d') := by
  rw [List.getD_eq_getElem (l.map f) d (by simpa using h), List.getElem_map,
    List.getD_eq_getElem l d' h]

lemma getD_mem {α : Type} (l : List α) {i : ℕ} (h : i < l.length) (d : α) :
    l.getD i d ∈ l := by
  rw [List.getD_eq_getElem l d h]
  exact List.getElem_mem h

/-- `logTransform` keeps the length. -/
lemma logTransform_length (w : List ℝ) (n : ℕ) : (logTransform w n).length = w.length := by
  simp [logTransform]

lemma logTransform_getD (w : List ℝ) (n i : ℕ) (h : i < w.length) :
    (logTransform w n).getD i 0 = if i < n then Real.log (w.getD i 0) else w.getD i 0 := by
  unfold logTransform
  rw [List.getD_eq_getElem?_getD, List.getElem?_map, List.getElem?_enum,
    List.getElem?_eq_getElem h, List.getD_eq_getElem w 0 h]
  rfl

/-- With strictly positive leading entries, `transform_params_for_distance`
succeeds and returns exactly `logTransform`. -/
lemma transform_ok (w : List ℝ) (n : ℕ)
    (hpos : ∀ i, i < min n w.length → 0 < w.getD i 0) :
    transform_params_for_distance w n = .ok (logTransform w n) := by
  obtain ⟨out, hout, hlen, hmid, hhigh⟩ := by
    refine logLoop_ok (min n w.length) 0 w (by omega) ?_
    intro k _ hk
    exact hpos k (by omega)
  obtain ⟨hmid', hhigh'⟩ := hhigh
  unfold transform_params_for_distance
  rw [hout]
  congr 1
  refine List.ext_getElem (by rw [hlen, logTransform_length]) ?_
  intro i h1 h2
  rw [← List.getD_eq_getElem out 0 h1, ← List.getD_eq_getElem (logTransform w n) 0 h2]
  have hiw : i < w.length := by rw [hlen] at h1; exact h1
  rw [logTransform_getD w n i hiw]
  by_cases hin : i < n
  · rw [if_pos hin, hmid' i (by omega) (by omega)]
  · rw [if_neg hin, hhigh' i (by omega)]

/-- The transformed vector of a profile, as computed inside the analyzer. -/
noncomputable def tVec (p : FSRSProfile) : List ℝ :=
  logTransform p.weights _LOG_FIRST_PARAM_COUNT

lemma tVec_length (p : FSRSProfile) : (tVec p).length = p.weights.length :=
  logTransform_length _ _

/-- Every row of the reference matrix has length 21, and there are 21 rows. -/
lemma reference_rows_length :
    FSRS6_RECENCY_INV_COVARIANCE_21.length = FSRS6_RECENCY_DIM ∧
    ∀ row ∈ FSRS6_RECENCY_INV_COVARIANCE_21, row.length = FSRS6_RECENCY_DIM := by
  constructor
  · simp [FSRS6_RECENCY_INV_COVARIANCE_21, _identity]
  · intro row hrow
    simp only [FSRS6_RECENCY_INV_COVARIANCE_21, _identity, List.mem_map] at hrow
    obtain ⟨i, _, hi⟩ := hrow
    simp [← hi]

/-- The strict reference-covariance selection succeeds on a non-empty family
of canonical-dimension vectors. -/
lemma get_validated_ok (rows : List (List ℝ)) (hne : rows ≠ [])
    (hlen : ∀ row ∈ rows, row.length = FSRS6_RECENCY_DIM) :
    get_validated_fsrs6_inverse_covariance rows = .ok FSRS6_RECENCY_INV_COVARIANCE_21 := by
  unfold get_validated_fsrs6_inverse_covariance
  rw [if_pos ⟨hne, hlen⟩]

/-- `mahalanobis_distance` succeeds on two canonical-dimension vectors with
the reference matrix. -/
lemma mah_ok_of_dim (a b : List ℝ) (ha : a.length = FSRS6_RECENCY_DIM)
    (hb : b.length = FSRS6_RECENCY_DIM) :
    mahalanobis_distance a b FSRS6_RECENCY_INV_COVARIANCE_21 =
      .ok (mahRaw a b FSRS6_RECENCY_INV_COVARIANCE_21) := by
  have h1 : ¬ (a.length ≠ b.length) := by simp [ha, hb]
  have hany : ¬ ((FSRS6_RECENCY_INV_COVARIANCE_21.any
      fun row => decide (row.length ≠ a.length)) = true) := by
    simp only [List.any_eq_true, not_exists]
    intro row
    simp only [not_and, decide_eq_true_eq]
    intro hrow
    simp [reference_rows_length.2 row hrow, ha]
  unfold mahalanobis_distance
  rw [if_neg h1, if_neg hany]

/-! ### The strictly-less running-minimum fold -/

/-- Folding `nearestStep` over candidates with strictly increasing indices,
starting from candidate `q`: the result is the first candidate attaining the
minimum distance (strictly-less updates keep the earlier of two ties). -/
lemma foldl_nearestStep_acc (d : ℕ → ℝ) (names : ℕ → String) :
    ∀ (J : List ℕ) (q : ℕ), J.Pairwise (· < ·) → (∀ k ∈ J, q < k) →
    ∃ j, (j = q ∨ j ∈ J) ∧
      (J.map (fun i => (names i, d i))).foldl nearestStep (some (names q, d q)) =
        some (names j, d j) ∧
      d j ≤ d q ∧ (∀ k ∈ J, d j ≤ d k) ∧ (∀ k ∈ J, k < j → d j < d k) ∧
      (j ≠ q → d j < d q) := by
  intro J
  induction J with
  | nil =>
    intro q _ _
    exact ⟨q, Or.inl rfl, rfl, le_refl _, by simp, by simp, fun h => absurd rfl h⟩
  | cons a J ih =>
    intro q hpair hgt
    have hqa : q < a := hgt a (by simp)
    have haJ : ∀ k ∈ J, a < k := fun k hk => (List.pairwise_cons.mp hpair).1 k hk
    have hpair' : J.Pairwise (· < ·) := (List.pairwise_cons.mp hpair).2
    simp only [List.map_cons, List.foldl_cons]
    by_cases hlt : d a < d q
    · have hstep : nearestStep (some (names q, d q)) (names a, d a) = some (names a, d a) := by
        simp [nearestStep, hlt]
      rw [hstep]
      obtain ⟨j, hjmem, hfold, hjq, hmin, hfirst, hstrict⟩ := ih a hpair' haJ
      refine ⟨j, ?_, hfold, le_of_lt (lt_of_le_of_lt hjq hlt), ?_, ?_, ?_⟩
      · rcases hjmem with h | h
        · exact Or.inr (by simp [h])
        · exact Or.inr (by simp [h])
      · intro k hk
        rcases List.mem_cons.mp hk with h | h
        · exact h ▸ hjq
        · exact hmin k h
      · intro k hk hkj
        rcases List.mem_cons.mp hk with h | h
        · subst h
          have hja : j ≠ k := by omega
          exact hstrict hja
        · exact hfirst k h hkj
      · intro _
        exact lt_of_le_of_lt hjq hlt
    · have hstep : nearestStep (some (names q, d q)) (names a, d a) = some (names q, d q) := by
        simp [nearestStep, hlt]
      rw [hstep]
      have hgt' : ∀ k ∈ J, q < k := fun k hk => lt_trans hqa (haJ k hk)
      obtain ⟨j, hjmem, hfold, hjq, hmin, hfirst, hstrict⟩ := ih q hpair' hgt'
      have hja : j ≠ a := by
        rcases hjmem with h | h
        · omega
        · have := haJ j h
          omega
      refine ⟨j, ?_, hfold, hjq, ?_, ?_, hstrict⟩
      · rcases hjmem with h | h
        · exact Or.inl h
        · exact Or.inr (by simp [h])
      · intro k hk
        rcases List.mem_cons.mp hk with h | h
        · subst h
          exact le_trans hjq (not_lt.mp hlt)
        · exact hmin k h
      · intro k hk hkj
        rcases List.mem_cons.mp hk with h | h
        · subst h
          have hjq' : j ≠ q := by omega
          exact lt_of_lt_of_le (hstrict hjq') (not_lt.mp hlt)
        · exact hfirst k h hkj

/-- The fold of the analyzer starts from `none`; on a non-empty candidate
list with strictly increasing indices it returns the first candidate
attaining the minimum distance. -/
lemma foldl_nearestStep_none (d : ℕ → ℝ) (names : ℕ → String) (J : List ℕ)
    (hne : J ≠ []) (hpair : J.Pairwise (· < ·)) :
    ∃ j ∈ J, (J.map (fun i => (names i, d i))).foldl nearestStep none =
        some (names j, d j) ∧
      (∀ k ∈ J, d j ≤ d k) ∧ (∀ k ∈ J, k < j → d j < d k) := by
  cases J with
  | nil => exact absurd rfl hne
  | cons a J =>
    have haJ : ∀ k ∈ J, a < k := fun k hk => (List.pairwise_cons.mp hpair).1 k hk
    have hpair' : J.Pairwise (· < ·) := (List.pairwise_cons.mp hpair).2
    simp only [List.map_cons, List.foldl_cons]
    have hstep : nearestStep none (names a, d a) = some (names a, d a) := rfl
    rw [hstep]
    obtain ⟨j, hjmem, hfold, hjq, hmin, hfirst, hstrict⟩ :=
      foldl_nearestStep_acc d names J a hpair' haJ
    refine ⟨j, ?_, hfold, ?_, ?_⟩
    · rcases hjmem with h | h
      · simp [h]
      · simp [h]
    · intro k hk
      rcases List.mem_cons.mp hk with h | h
      · exact h ▸ hjq
      · exact hmin k h
    · intro k hk hkj
      rcases List.mem_cons.mp hk with h | h
      · subst h
        have : j ≠ k := by
          rcases hjmem with h' | h'
          · omega
          · have := haJ j h'
            omega
        exact hstrict this
      · exact hfirst k h hkj

/-! ### Names for the analyzer's intermediate values -/

/-- The analyzer's partition: profiles with canonical-dimension weights. -/
def valid_profiles_of (profiles : List FSRSProfile) : List FSRSProfile :=
  profiles.filter (fun p => is_fsrs6_valid_params p.weights)

/-- The analyzer's partition: profiles without canonical-dimension weights. -/
def invalid_profiles_of (profiles : List FSRSProfile) : List FSRSProfile :=
  profiles.filter (fun p => !is_fsrs6_valid_params p.weights)

/-- The status-flagged empty result the analyzer builds for an invalid profile. -/
def invalidResult (p : FSRSProfile) : DistanceResult :=
  { profile := p, nearest_profile_name := none, nearest_distance := none,
    should_share_preset := none, status_message := some NOT_FSRS6_VALID_PARAMS_MESSAGE }

/-- The Mahalanobis distance between the transformed weight vectors of the
valid profiles at indices `i` and `j`, under the reference matrix. -/
noncomputable def pairDist (valid : List FSRSProfile) (i j : ℕ) : ℝ :=
  mahRaw (tVec (valid.getD i default)) (tVec (valid.getD j default))
    FSRS6_RECENCY_INV_COVARIANCE_21

/-- The indices of the valid profiles other than `idx`, in input iteration
order. -/
def othersOf (valid : List FSRSProfile) (idx : ℕ) : List ℕ :=
  (valid.enum.filter (fun p => p.1 ≠ idx)).map Prod.fst

/-- The value of the analyzer's inner nearest-neighbour fold for the valid
profile at `idx`. -/
noncomputable def nearestPure (valid : List FSRSProfile) (idx : ℕ) : Option (String × ℝ) :=
  ((othersOf valid idx).map
    (fun j => ((valid.getD j default).profile_name, pairDist valid idx j))).foldl
    nearestStep none

/-- The `DistanceResult` the analyzer builds for the valid profile at `idx`
when two or more valid profiles exist. -/
noncomputable def resultFor (valid : List FSRSProfile) (idx : ℕ) : DistanceResult :=
  { profile := valid.getD idx default,
    nearest_profile_name := (nearestPure valid idx).map Prod.fst,
    nearest_distance := (nearestPure valid idx).map Prod.snd,
    should_share_preset := recommend_shared_preset (valid.getD idx default).weights.length
      ((nearestPure valid idx).map Prod.snd),
    status_message := none }

lemma enum_mem_spec {α : Type} [Inhabited α] (l : List α) (p : ℕ × α)
    (hp : p ∈ l.enum) : p.1 < l.length ∧ p.2 = l.getD p.1 default := by
  rw [List.mem_enum_iff_getElem?] at hp
  have hlt : p.1 < l.length := by
    by_contra hc
    rw [List.getElem?_eq_none (by omega)] at hp
    cases hp
  refine ⟨hlt, ?_⟩
  rw [List.getElem?_eq_getElem hlt] at hp
  injection hp with hp'
  rw [List.getD_eq_getElem l default hlt, hp']

lemma enum_mem_of_lt {α : Type} [Inhabited α] (l : List α) {i : ℕ} (h : i < l.length) :
    (i, l.getD i default) ∈ l.enum := by
  rw [List.mem_enum_iff_getElem?, List.getElem?_eq_getElem h,
    List.getD_eq_getElem l default h]

lemma othersOf_pairwise (valid : List FSRSProfile) (idx : ℕ) :
    (othersOf valid idx).Pairwise (· < ·) := by
  have h1 : (valid.enum.map Prod.fst).Pairwise (· < ·) := by
    rw [List.enum_map_fst]
    exact List.pairwise_lt_range _
  have h2 : valid.enum.Pairwise (fun a b => a.1 < b.1) := List.pairwise_map.mp h1
  have h3 : (valid.enum.filter (fun p => p.1 ≠ idx)).Pairwise (fun a b => a.1 < b.1) :=
    List.Pairwise.sublist (List.filter_sublist _) h2
  exact List.pairwise_map.mpr h3

lemma othersOf_mem (valid : List FSRSProfile) (idx j : ℕ) :
    j ∈ othersOf valid idx ↔ j < valid.length ∧ j ≠ idx := by
  unfold othersOf
  rw [List.mem_map]
  constructor
  · intro ⟨p, hp, hpj⟩
    obtain ⟨hpin, hne⟩ := List.mem_filter.mp hp
    obtain ⟨hlt, _⟩ := enum_mem_spec valid p hpin
    refine ⟨hpj ▸ hlt, ?_⟩
    intro he
    rw [he] at hpj
    simp only [decide_eq_true_eq] at hne
    exact hne (hpj ▸ rfl)
  · intro ⟨hlt, hne⟩
    refine ⟨(j, valid.getD j default), ?_, rfl⟩
    rw [List.mem_filter]
    exact ⟨enum_mem_of_lt valid hlt, by simpa using hne⟩

lemma othersOf_ne_nil (valid : List FSRSProfile) (idx : ℕ)
    (h2 : 2 ≤ valid.length) : othersOf valid idx ≠ [] := by
  have : (if idx = 0 then 1 else 0) ∈ othersOf valid idx := by
    rw [othersOf_mem]
    by_cases h : idx = 0 <;> simp [h] <;> omega
  exact List.ne_nil_of_mem this

/-- With skips folded away, the analyzer's inner loop is the pure
`nearestStep` fold over the non-`idx` candidates. -/
lemma foldl_skip_eq (idx : ℕ) (f : ℕ × FSRSProfile → String × ℝ) :
    ∀ (l : List (ℕ × FSRSProfile)) (b : Option (String × ℝ)),
    l.foldl (fun b p => if p.1 = idx then b else nearestStep b (f p)) b =
      ((l.filter (fun p => p.1 ≠ idx)).map f).foldl nearestStep b := by
  intro l
  induction l with
  | nil => intro b; rfl
  | cons p l ih =>
    intro b
    by_cases hp : p.1 = idx
    · rw [List.foldl_cons, if_pos hp, List.filter_cons, if_neg (by simpa using hp)]
      exact ih b
    · rw [List.foldl_cons, if_neg hp, List.filter_cons, if_pos (by simpa using hp),
        List.map_cons, List.foldl_cons]
      exact ih (nearestStep b (f p))

/-- Under canonical dimensions, the analyzer's monadic nearest-neighbour
loop succeeds and computes `nearestPure`. -/
lemma nearestFor_eq (valid : List FSRSProfile) (idx : ℕ) (hidx : idx < valid.length)
    (hdim : ∀ p ∈ valid, p.weights.length = FSRS6_RECENCY_DIM) :
    nearestFor valid (valid.map tVec) FSRS6_RECENCY_INV_COVARIANCE_21 idx =
      .ok (nearestPure valid idx) := by
  have hvlen : ∀ j, j < valid.length →
      ((valid.map tVec).getD j []).length = FSRS6_RECENCY_DIM := by
    intro j hj
    rw [getD_map tVec valid hj [] default, tVec_length]
    exact hdim (valid.getD j default) (getD_mem valid hj default)
  have hmah : ∀ j, j < valid.length →
      mahalanobis_distance ((valid.map tVec).getD idx []) ((valid.map tVec).getD j [])
        FSRS6_RECENCY_INV_COVARIANCE_21 = .ok (pairDist valid idx j) := by
    intro j hj
    rw [mah_ok_of_dim _ _ (hvlen idx hidx) (hvlen j hj)]
    unfold pairDist
    rw [getD_map tVec valid hidx [] default, getD_map tVec valid hj [] default]
  -- step 1: the monadic fold equals the pure fold with skips
  have hstep1 : ∀ (l : List (ℕ × FSRSProfile)) (b : Option (String × ℝ)),
      (∀ p ∈ l, p.1 < valid.length) →
      l.foldlM (fun best p =>
        (if p.1 = idx then Except.ok best
        else
          match mahalanobis_distance ((valid.map tVec).getD idx [])
              ((valid.map tVec).getD p.1 []) FSRS6_RECENCY_INV_COVARIANCE_21 with
          | Except.error e => Except.error e
          | Except.ok dist => Except.ok (nearestStep best (p.2.profile_name, dist)) :
          Except PyErr (Option (String × ℝ)))) b =
      .ok (l.foldl (fun best p =>
        if p.1 = idx then best
        else nearestStep best (p.2.profile_name, pairDist valid idx p.1)) b) := by
    intro l
    induction l with
    | nil => intro b _; rfl
    | cons p l ih =>
      intro b hl
      rw [List.foldlM_cons, List.foldl_cons]
      by_cases hp : p.1 = idx
      · rw [if_pos hp, if_pos hp]
        exact ih b (fun q hq => hl q (by simp [hq]))
      · rw [if_neg hp, if_neg hp, hmah p.1 (hl p (by simp))]
        exact ih _ (fun q hq => hl q (by simp [hq]))
  unfold nearestFor
  rw [hstep1 valid.enum none (fun p hp => (enum_mem_spec valid p hp).1)]
  congr 1
  rw [foldl_skip_eq idx (fun p => (p.2.profile_name, pairDist valid idx p.1)) valid.enum none]
  unfold nearestPure othersOf
  rw [List.map_map]
  refine congrArg (fun l => List.foldl nearestStep none l) ?_
  refine List.map_congr_left ?_
  intro p hp
  obtain ⟨hlt, hsnd⟩ := enum_mem_spec valid p (List.mem_filter.mp hp).1
  simp only [Function.comp]
  rw [hsnd]

/-! ### Reducing `analyze_profiles` on each branch -/

lemma profiles_ne_nil_of_valid {profiles : List FSRSProfile}
    (h : (valid_profiles_of profiles).length ≠ 0) : ¬ (profiles.isEmpty = true) := by
  cases profiles with
  | nil =>
    exfalso
    exact h (by rfl)
  | cons a l => simp

/-- The canonical dimension of every valid profile. -/
lemma valid_dim {profiles : List FSRSProfile} :
    ∀ p ∈ valid_profiles_of profiles, p.weights.length = FSRS6_RECENCY_DIM := by
  intro p hp
  have := (List.mem_filter.mp hp).2
  simpa [is_fsrs6_valid_params] using this

/-- Branch reduction: no valid profile at all. -/
lemma analyze_profiles_zero (profiles : List FSRSProfile)
    (h0 : (valid_profiles_of profiles).length = 0) (hne : profiles ≠ []) :
    analyze_profiles profiles = .ok
      (((invalid_profiles_of profiles).map invalidResult).mergeSort
        (fun a b => nameLe a.profile b.profile)) := by
  have hne' : ¬ (profiles.isEmpty = true) := by
    cases profiles with
    | nil => exact absurd rfl hne
    | cons a l => simp
  unfold valid_profiles_of at h0
  unfold invalid_profiles_of invalidResult
  simp only [analyze_profiles]
  rw [if_neg hne', if_neg (by omega : ¬ ((profiles.filter
    (fun p => is_fsrs6_valid_params p.weights)).length = 1)),
    if_neg (by omega : ¬ (1 < (profiles.filter
      (fun p => is_fsrs6_valid_params p.weights)).length))]

/-- Branch reduction: exactly one valid profile. -/
lemma analyze_profiles_one (profiles : List FSRSProfile)
    (h1 : (valid_profiles_of profiles).length = 1) :
    analyze_profiles profiles = .ok
      (((invalid_profiles_of profiles).map invalidResult ++
        [({ profile := (valid_profiles_of profiles).headD default,
            nearest_profile_name := none, nearest_distance := none,
            should_share_preset := none, status_message := none } : DistanceResult)]).mergeSort
        (fun a b => nameLe a.profile b.profile)) := by
  have hne' : ¬ (profiles.isEmpty = true) := profiles_ne_nil_of_valid (by omega)
  unfold valid_profiles_of at h1 ⊢
  unfold invalid_profiles_of invalidResult
  simp only [analyze_profiles]
  rw [if_neg hne', if_pos h1]

/-- Branch reduction: two or more valid profiles whose transforms succeed. -/
lemma analyze_profiles_two (profiles : List FSRSProfile)
    (h2 : 2 ≤ (valid_profiles_of profiles).length)
    (hpos : ∀ p ∈ valid_profiles_of profiles, ∀ i, i < _LOG_FIRST_PARAM_COUNT →
      0 < p.weights.getD i 0) :
    analyze_profiles profiles = .ok
      (((invalid_profiles_of profiles).map invalidResult ++
        (List.range (valid_profiles_of profiles).length).map
          (resultFor (valid_profiles_of profiles))).mergeSort
        (fun a b => nameLe a.profile b.profile)) := by
  have hne' : ¬ (profiles.isEmpty = true) := profiles_ne_nil_of_valid (by omega)
  have hdim := @valid_dim profiles
  have htrans : ∀ p ∈ valid_profiles_of profiles,
      transform_params_for_distance p.weights = .ok (tVec p) := by
    intro p hp
    exact transform_ok p.weights _LOG_FIRST_PARAM_COUNT
      (fun i hi => hpos p hp i (by omega))
  have hmapM : (valid_profiles_of profiles).mapM
      (fun p => transform_params_for_distance p.weights) =
      .ok ((valid_profiles_of profiles).map tVec) :=
    mapM_ok_of_all _ tVec _ htrans
  have hvecs_len : ∀ row ∈ (valid_profiles_of profiles).map tVec,
      row.length = FSRS6_RECENCY_DIM := by
    intro row hrow
    obtain ⟨p, hp, hrow'⟩ := List.mem_map.mp hrow
    rw [← hrow', tVec_length]
    exact hdim p hp
  have hvecs_ne : (valid_profiles_of profiles).map tVec ≠ [] := by
    intro h
    have := congrArg List.length h
    simp only [List.length_map, List.length_nil] at this
    omega
  have hget : get_validated_fsrs6_inverse_covariance
      ((valid_profiles_of profiles).map tVec) = .ok FSRS6_RECENCY_INV_COVARIANCE_21 :=
    get_validated_ok _ hvecs_ne hvecs_len
  have hinner : ∀ p ∈ (valid_profiles_of profiles).enum,
      (match nearestFor (valid_profiles_of profiles)
          ((valid_profiles_of profiles).map tVec) FSRS6_RECENCY_INV_COVARIANCE_21 p.1 with
        | Except.error e => Except.error e
        | Except.ok nb => Except.ok
            ({ profile := p.2,
               nearest_profile_name := nb.map Prod.fst,
               nearest_distance := nb.map Prod.snd,
               should_share_preset :=
                 recommend_shared_preset p.2.weights.length (nb.map Prod.snd),
               status_message := none } : DistanceResult) :
        Except PyErr DistanceResult) = .ok (resultFor (valid_profiles_of profiles) p.1) := by
    intro p hp
    obtain ⟨hlt, hsnd⟩ := enum_mem_spec _ p hp
    rw [nearestFor_eq _ p.1 hlt hdim]
    show Except.ok
        ({ profile := p.2,
           nearest_profile_name := (nearestPure (valid_profiles_of profiles) p.1).map Prod.fst,
           nearest_distance := (nearestPure (valid_profiles_of profiles) p.1).map Prod.snd,
           should_share_preset := recommend_shared_preset p.2.weights.length
             ((nearestPure (valid_profiles_of profiles) p.1).map Prod.snd),
           status_message := none } : DistanceResult) = _
    rw [hsnd]
    rfl
  have hmapM2 : (valid_profiles_of profiles).enum.mapM
      (fun p =>
        (match nearestFor (valid_profiles_of profiles)
            ((valid_profiles_of profiles).map tVec) FSRS6_RECENCY_INV_COVARIANCE_21 p.1 with
        | Except.error e => Except.error e
        | Except.ok nb => Except.ok
            ({ profile := p.2,
               nearest_profile_name := nb.map Prod.fst,
               nearest_distance := nb.map Prod.snd,
               should_share_preset :=
                 recommend_shared_preset p.2.weights.length (nb.map Prod.snd),
               status_message := none } : DistanceResult) :
        Except PyErr DistanceResult)) =
      .ok ((List.range (valid_profiles_of profiles).length).map
        (resultFor (valid_profiles_of profiles))) := by
    rw [mapM_ok_of_all _ (fun p => resultFor (valid_profiles_of profiles) p.1) _ hinner]
    congr 1
    rw [show (fun p : ℕ × FSRSProfile => resultFor (valid_profiles_of profiles) p.1) =
      (resultFor (valid_profiles_of profiles)) ∘ Prod.fst from rfl]
    rw [← List.map_map, List.enum_map_fst]
  unfold valid_profiles_of at h2 hmapM hget hmapM2 ⊢
  unfold invalid_profiles_of invalidResult
  simp only [analyze_profiles]
  rw [if_neg hne', if_neg (by omega : ¬ ((profiles.filter
      (fun p => is_fsrs6_valid_params p.weights)).length = 1)),
    if_pos (by omega : 1 < (profiles.filter
      (fun p => is_fsrs6_valid_params p.weights)).length)]
  simp only [hmapM, hget, hmapM2]

/-! ### C3: output shape of `analyze_profiles` -/

lemma nameLe_total (a b : FSRSProfile) : (nameLe a b || nameLe b a) = true := by
  unfold nameLe
  by_cases h : a.profile_name.toLower ≤ b.profile_name.toLower
  · simp [h]
  · simp [le_of_not_le h]

lemma nameLe_trans (a b c : FSRSProfile) (hab : nameLe a b = true)
    (hbc : nameLe b c = true) : nameLe a c = true := by
  unfold nameLe at hab hbc ⊢
  simp only [decide_eq_true_eq] at hab hbc ⊢
  exact le_trans hab hbc

lemma range_map_getD {α : Type} [Inhabited α] (l : List α) :
    (List.range l.length).map (fun i => l.getD i default) = l := by
  refine List.ext_getElem (by simp) ?_
  intro i h1 h2
  rw [List.getElem_map, List.getElem_range, List.getD_eq_getElem l default h2]

lemma results_perm (profiles : List FSRSProfile) (X : List DistanceResult)
    (hX : X.map (fun r => r.profile) = valid_profiles_of profiles) :
    ((((invalid_profiles_of profiles).map invalidResult ++ X).mergeSort
      (fun a b => nameLe a.profile b.profile)).map (fun r => r.profile)).Perm profiles := by
  have hperm := List.mergeSort_perm
    ((invalid_profiles_of profiles).map invalidResult ++ X)
    (fun a b => nameLe a.profile b.profile)
  refine (List.Perm.map _ hperm).trans ?_
  rw [List.map_append, List.map_map]
  have hinv : (invalid_profiles_of profiles).map ((fun r => r.profile) ∘ invalidResult) =
      invalid_profiles_of profiles := by
    have : ((fun (r : DistanceResult) => r.profile) ∘ invalidResult) =
        fun p : FSRSProfile => p := rfl
    rw [this, List.map_id']
  rw [hinv, hX]
  have hfp := List.filter_append_perm (fun p => is_fsrs6_valid_params p.weights) profiles
  exact (List.perm_append_comm).trans hfp

/-- The profiles of the valid-branch results are exactly the valid profiles. -/
lemma resultFor_map_profile (valid : List FSRSProfile) :
    ((List.range valid.length).map (resultFor valid)).map (fun r => r.profile) = valid := by
  rw [List.map_map]
  have : ((fun r : DistanceResult => r.profile) ∘ resultFor valid) =
      fun i => valid.getD i default := rfl
  rw [this, range_map_getD]

/-- C3 (amended): provided that, when two or more canonical profiles exist,
every canonical profile's leading weights are strictly positive (otherwise
`analyze_profiles` fails, see the counterexample), `analyze_profiles` returns
one `DistanceResult` per input profile (as a permutation), sorted by
case-insensitive profile name; every non-canonical profile's result has
nearest name, distance and recommendation absent with the non-canonical
status flag; with exactly one canonical profile its result has all three
absent and no status flag; and the empty input yields the empty output. -/
theorem C3_analyze_profiles_shape (profiles : List FSRSProfile)
    (hpos : 2 ≤ (valid_profiles_of profiles).length →
      ∀ p ∈ valid_profiles_of profiles, ∀ i, i < _LOG_FIRST_PARAM_COUNT →
        0 < p.weights.getD i 0) :
    ∃ rs, analyze_profiles profiles = .ok rs ∧
      (rs.map (fun r => r.profile)).Perm profiles ∧
      rs.Pairwise (fun a b => nameLe a.profile b.profile = true) ∧
      (∀ r ∈ rs, is_fsrs6_valid_params r.profile.weights = false →
        r.nearest_profile_name = none ∧ r.nearest_distance = none ∧
        r.should_share_preset = none ∧
        r.status_message = some NOT_FSRS6_VALID_PARAMS_MESSAGE) ∧
      ((valid_profiles_of profiles).length = 1 →
        ∀ r ∈ rs, is_fsrs6_valid_params r.profile.weights = true →
          r.nearest_profile_name = none ∧ r.nearest_distance = none ∧
          r.should_share_preset = none ∧ r.status_message = none) ∧
      (profiles = [] → rs = []) := by
  by_cases hpe : profiles = []
  · subst hpe
    refine ⟨[], rfl, by simp, by simp, by simp, ?_, fun _ => rfl⟩
    intro h1
    exfalso
    simp [valid_profiles_of] at h1
  · have hsorted : ∀ (R : List DistanceResult),
        (R.mergeSort (fun a b => nameLe a.profile b.profile)).Pairwise
          (fun a b => nameLe a.profile b.profile = true) :=
      fun R => List.sorted_mergeSort
        (fun a b c => nameLe_trans a.profile b.profile c.profile)
        (fun a b => nameLe_total a.profile b.profile) R
    have hinv_mem : ∀ r ∈ (invalid_profiles_of profiles).map invalidResult,
        is_fsrs6_valid_params r.profile.weights = false ∧
        r.nearest_profile_name = none ∧ r.nearest_distance = none ∧
        r.should_share_preset = none ∧
        r.status_message = some NOT_FSRS6_VALID_PARAMS_MESSAGE := by
      intro r hr
      obtain ⟨p, hp, hr'⟩ := List.mem_map.mp hr
      have hpinv := (List.mem_filter.mp hp).2
      refine ⟨?_, by rw [← hr']; rfl, by rw [← hr']; rfl, by rw [← hr']; rfl,
        by rw [← hr']; rfl⟩
      rw [← hr']
      show is_fsrs6_valid_params p.weights = false
      simpa using hpinv
    by_cases hz : (valid_profiles_of profiles).length = 0
    · refine ⟨_, analyze_profiles_zero profiles hz hpe, ?_, hsorted _, ?_, ?_, ?_⟩
      · have hX : ([] : List DistanceResult).map (fun r => r.profile) =
            valid_profiles_of profiles := by
          rw [List.map_nil]
          exact (List.length_eq_zero.mp hz).symm
        have hpm := results_perm profiles [] hX
        simpa using hpm
      · intro r hr _
        rw [List.mem_mergeSort] at hr
        exact (hinv_mem r hr).2
      · intro h1
        omega
      · intro h
        exact absurd h hpe
    · by_cases ho : (valid_profiles_of profiles).length = 1
      · obtain ⟨v, hv⟩ := List.length_eq_one.mp ho
        have hhead : (valid_profiles_of profiles).headD default = v := by rw [hv]; rfl
        refine ⟨_, analyze_profiles_one profiles ho, ?_, hsorted _, ?_, ?_, ?_⟩
        · refine results_perm profiles _ ?_
          rw [hv]
          rfl
        · intro r hr hrinv
          rw [List.mem_mergeSort, List.mem_append] at hr
          rcases hr with hr | hr
          · exact (hinv_mem r hr).2
          · exfalso
            simp only [List.mem_cons, List.not_mem_nil, or_false] at hr
            have : is_fsrs6_valid_params r.profile.weights = true := by
              rw [hr]
              show is_fsrs6_valid_params ((valid_profiles_of profiles).headD default).weights = true
              rw [hhead]
              have : v ∈ valid_profiles_of profiles := by rw [hv]; simp
              exact (List.mem_filter.mp this).2
            rw [this] at hrinv
            cases hrinv
        · intro _ r hr hrval
          rw [List.mem_mergeSort, List.mem_append] at hr
          rcases hr with hr | hr
          · rw [(hinv_mem r hr).1] at hrval
            cases hrval
          · simp only [List.mem_cons, List.not_mem_nil, or_false] at hr
            rw [hr]
            exact ⟨rfl, rfl, rfl, rfl⟩
        · intro h
          exact absurd h hpe
      · have h2 : 2 ≤ (valid_profiles_of profiles).length := by omega
        refine ⟨_, analyze_profiles_two profiles h2 (hpos h2), ?_, hsorted _, ?_, ?_, ?_⟩
        · exact results_perm profiles _ (resultFor_map_profile _)
        · intro r hr hrinv
          rw [List.mem_mergeSort, List.mem_append] at hr
          rcases hr with hr | hr
          · exact (hinv_mem r hr).2
          · exfalso
            obtain ⟨i, hi, hr'⟩ := List.mem_map.mp hr
            have hilt : i < (valid_profiles_of profiles).length := List.mem_range.mp hi
            have hmem : (valid_profiles_of profiles).getD i default ∈
                valid_profiles_of profiles := getD_mem _ hilt _
            have hval : is_fsrs6_valid_params
                ((valid_profiles_of profiles).getD i default).weights = true :=
              (List.mem_filter.mp hmem).2
            have hprof : r.profile = (valid_profiles_of profiles).getD i default := by
              rw [← hr']
              rfl
            rw [hprof, hval] at hrinv
            cases hrinv
        · intro h1
          omega
        · intro h
          exact absurd h hpe

/-- Counterexample to C3 as stated: on two canonical-dimension profiles
whose leading weights are not strictly positive, `analyze_profiles` raises
the log-transform error instead of returning one result per profile. -/
theorem C3_counterexample :
    analyze_profiles
      [⟨1, "A", List.replicate 21 (-1 : ℝ)⟩, ⟨2, "B", List.replicate 21 (-1 : ℝ)⟩] =
      .error (.invalidInput "Log transform requires strictly positive first FSRS params") := by
  have hval : is_fsrs6_valid_params (List.replicate 21 (-1 : ℝ)) = true := by
    simp [is_fsrs6_valid_params, FSRS6_RECENCY_DIM]
  have htrans : transform_params_for_distance (List.replicate 21 (-1 : ℝ)) =
      .error (.invalidInput "Log transform requires strictly positive first FSRS params") := by
    unfold transform_params_for_distance
    rw [logLoop_error_iff]
    refine ⟨0, le_refl 0, ?_, ?_⟩
    · have hl : (List.replicate 21 (-1 : ℝ)).length = 21 := List.length_replicate 21 (-1)
      simp only [_LOG_FIRST_PARAM_COUNT]
      omega
    · have hlt : 0 < (List.replicate 21 (-1 : ℝ)).length := by
        rw [List.length_replicate]
        omega
      rw [List.getD_eq_getElem _ 0 hlt, List.getElem_replicate]
      norm_num
  have hfilter : List.filter (fun p => is_fsrs6_valid_params p.weights)
      [(⟨1, "A", List.replicate 21 (-1 : ℝ)⟩ : FSRSProfile),
        ⟨2, "B", List.replicate 21 (-1 : ℝ)⟩] =
      [⟨1, "A", List.replicate 21 (-1 : ℝ)⟩, ⟨2, "B", List.replicate 21 (-1 : ℝ)⟩] := by
    simp only [List.filter_cons, List.filter_nil, hval, eq_self_iff_true, if_true]
  have hmapM : ([(⟨1, "A", List.replicate 21 (-1 : ℝ)⟩ : FSRSProfile),
      ⟨2, "B", List.replicate 21 (-1 : ℝ)⟩]).mapM
      (fun p => transform_params_for_distance p.weights) =
      .error (.invalidInput "Log transform requires strictly positive first FSRS params") := by
    rw [List.mapM_cons]
    show (transform_params_for_distance (List.replicate 21 (-1 : ℝ))).bind _ =
      Except.error _
    rw [htrans]
    rfl
  simp only [analyze_profiles]
  rw [if_neg (by simp)]
  rw [hfilter]
  rw [if_neg (by simp), if_pos (by simp)]
  simp only [hmapM]

/-- Witness for C3 (amended) at two all-ones canonical profiles. -/
theorem C3_analyze_profiles_shape_witness :
    ∃ rs, analyze_profiles
        [⟨1, "A", List.replicate 21 (1 : ℝ)⟩, ⟨2, "B", List.replicate 21 (1 : ℝ)⟩] =
        .ok rs ∧
      (rs.map (fun r => r.profile)).Perm
        [⟨1, "A", List.replicate 21 (1 : ℝ)⟩, ⟨2, "B", List.replicate 21 (1 : ℝ)⟩] ∧
      rs.Pairwise (fun a b => nameLe a.profile b.profile = true) := by
  have hpos : 2 ≤ (valid_profiles_of
      [(⟨1, "A", List.replicate 21 (1 : ℝ)⟩ : FSRSProfile),
        ⟨2, "B", List.replicate 21 (1 : ℝ)⟩]).length →
      ∀ p ∈ valid_profiles_of
        [(⟨1, "A", List.replicate 21 (1 : ℝ)⟩ : FSRSProfile),
          ⟨2, "B", List.replicate 21 (1 : ℝ)⟩],
        ∀ i, i < _LOG_FIRST_PARAM_COUNT → 0 < p.weights.getD i 0 := by
    intro _ p hp i hi
    have hp' := (List.mem_filter.mp hp).1
    have hw : p.weights = List.replicate 21 (1 : ℝ) := by
      rcases List.mem_cons.mp hp' with h | h
      · rw [h]
      · simp only [List.mem_cons, List.not_mem_nil, or_false] at h
        rw [h]
    have hilt : i < (List.replicate 21 (1 : ℝ)).length := by
      rw [List.length_replicate]
      simp only [_LOG_FIRST_PARAM_COUNT] at hi
      omega
    rw [hw, List.getD_eq_getElem _ 0 hilt, List.getElem_replicate]
    norm_num
  obtain ⟨rs, h1, h2, h3, _⟩ := C3_analyze_profiles_shape
    [⟨1, "A", List.replicate 21 (1 : ℝ)⟩, ⟨2, "B", List.replicate 21 (1 : ℝ)⟩] hpos
  exact ⟨rs, h1, h2, h3⟩

/-! ### C2: nearest-neighbour correctness -/

/-- C2: with two or more canonical profiles whose transforms succeed, each
valid profile's result records as nearest distance the minimum of the
Mahalanobis distances (between transformed weight vectors, all under the
same reference inverse covariance) to every other valid profile, and as
nearest name the name of the first valid profile, in input iteration order,
attaining that minimum — the strictly-less comparison keeps the
earlier-seen neighbour on an exact tie. -/
theorem C2_analyze_profiles_nearest (profiles : List FSRSProfile)
    (h2 : 2 ≤ (valid_profiles_of profiles).length)
    (hpos : ∀ p ∈ valid_profiles_of profiles, ∀ i, i < _LOG_FIRST_PARAM_COUNT →
      0 < p.weights.getD i 0) :
    ∃ rs, analyze_profiles profiles = .ok rs ∧
      ∀ idx, idx < (valid_profiles_of profiles).length →
        ∃ j, j < (valid_profiles_of profiles).length ∧ j ≠ idx ∧
          (∀ k, k < (valid_profiles_of profiles).length → k ≠ idx →
            pairDist (valid_profiles_of profiles) idx j ≤
              pairDist (valid_profiles_of profiles) idx k) ∧
          (∀ k, k < j → k ≠ idx →
            pairDist (valid_profiles_of profiles) idx j <
              pairDist (valid_profiles_of profiles) idx k) ∧
          ({ profile := (valid_profiles_of profiles).getD idx default,
             nearest_profile_name :=
               some ((valid_profiles_of profiles).getD j default).profile_name,
             nearest_distance := some (pairDist (valid_profiles_of profiles) idx j),
             should_share_preset := recommend_shared_preset FSRS6_RECENCY_DIM
               (some (pairDist (valid_profiles_of profiles) idx j)),
             status_message := none } : DistanceResult) ∈ rs := by
  refine ⟨_, analyze_profiles_two profiles h2 hpos, ?_⟩
  intro idx hidx
  obtain ⟨j, hjmem, hfold, hmin, hfirst⟩ :=
    foldl_nearestStep_none (pairDist (valid_profiles_of profiles) idx)
      (fun j => ((valid_profiles_of profiles).getD j default).profile_name)
      (othersOf (valid_profiles_of profiles) idx)
      (othersOf_ne_nil _ _ h2) (othersOf_pairwise _ _)
  obtain ⟨hjlt, hjne⟩ := (othersOf_mem _ _ _).mp hjmem
  have hnp : nearestPure (valid_profiles_of profiles) idx =
      some (((valid_profiles_of profiles).getD j default).profile_name,
        pairDist (valid_profiles_of profiles) idx j) := hfold
  refine ⟨j, hjlt, hjne, ?_, ?_, ?_⟩
  · intro k hk hkne
    exact hmin k ((othersOf_mem _ _ _).mpr ⟨hk, hkne⟩)
  · intro k hkj hkne
    have hklt : k < (valid_profiles_of profiles).length := lt_trans hkj hjlt
    exact hfirst k ((othersOf_mem _ _ _).mpr ⟨hklt, hkne⟩) hkj
  · rw [List.mem_mergeSort, List.mem_append]
    refine Or.inr ?_
    rw [List.mem_map]
    refine ⟨idx, List.mem_range.mpr hidx, ?_⟩
    have hw21 : ((valid_profiles_of profiles).getD idx default).weights.length =
        FSRS6_RECENCY_DIM := valid_dim _ (getD_mem _ hidx _)
    unfold resultFor
    rw [hnp, hw21]
    rfl

/-- Witness for C2 at two equal all-ones canonical profiles (an exact tie
in both directions). -/
theorem C2_analyze_profiles_nearest_witness :
    ∃ rs, analyze_profiles
        [⟨1, "A", List.replicate 21 (1 : ℝ)⟩, ⟨2, "B", List.replicate 21 (1 : ℝ)⟩] =
        .ok rs ∧
      ∃ j, j < (valid_profiles_of
          [(⟨1, "A", List.replicate 21 (1 : ℝ)⟩ : FSRSProfile),
            ⟨2, "B", List.replicate 21 (1 : ℝ)⟩]).length ∧ j ≠ 0 := by
  have hval : is_fsrs6_valid_params (List.replicate 21 (1 : ℝ)) = true := by
    simp [is_fsrs6_valid_params, FSRS6_RECENCY_DIM]
  have hfl : valid_profiles_of
      [(⟨1, "A", List.replicate 21 (1 : ℝ)⟩ : FSRSProfile),
        ⟨2, "B", List.replicate 21 (1 : ℝ)⟩] =
      [⟨1, "A", List.replicate 21 (1 : ℝ)⟩, ⟨2, "B", List.replicate 21 (1 : ℝ)⟩] := by
    unfold valid_profiles_of
    simp only [List.filter_cons, List.filter_nil, hval, eq_self_iff_true, if_true]
  have h2 : 2 ≤ (valid_profiles_of
      [(⟨1, "A", List.replicate 21 (1 : ℝ)⟩ : FSRSProfile),
        ⟨2, "B", List.replicate 21 (1 : ℝ)⟩]).length := by
    rw [hfl]
    simp
  have hpos : ∀ p ∈ valid_profiles_of
      [(⟨1, "A", List.replicate 21 (1 : ℝ)⟩ : FSRSProfile),
        ⟨2, "B", List.replicate 21 (1 : ℝ)⟩],
      ∀ i, i < _LOG_FIRST_PARAM_COUNT → 0 < p.weights.getD i 0 := by
    intro p hp i hi
    rw [hfl] at hp
    have hw : p.weights = List.replicate 21 (1 : ℝ) := by
      rcases List.mem_cons.mp hp with h | h
      · rw [h]
      · simp only [List.mem_cons, List.not_mem_nil, or_false] at h
        rw [h]
    have hilt : i < (List.replicate 21 (1 : ℝ)).length := by
      rw [List.length_replicate]
      simp only [_LOG_FIRST_PARAM_COUNT] at hi
      omega
    rw [hw, List.getD_eq_getElem _ 0 hilt, List.getElem_replicate]
    norm_num
  obtain ⟨rs, hok, hnear⟩ := C2_analyze_profiles_nearest
    [⟨1, "A", List.replicate 21 (1 : ℝ)⟩, ⟨2, "B", List.replicate 21 (1 : ℝ)⟩] h2 hpos
  obtain ⟨j, hj1, hj2, -⟩ := hnear 0 (by omega)
  exact ⟨rs, hok, j, hj1, hj2⟩

/-! ### C10: definiteness of canonical results -/

/-- C10: with at least two canonical profiles whose transformed vectors are
defined, every canonical profile's result carries a nearest name, a nearest
distance and a definite boolean recommendation. -/
theorem C10_canonical_results_definite (profiles : List FSRSProfile)
    (h2 : 2 ≤ (valid_profiles_of profiles).length)
    (hpos : ∀ p ∈ valid_profiles_of profiles, ∀ i, i < _LOG_FIRST_PARAM_COUNT →
      0 < p.weights.getD i 0) :
    ∃ rs, analyze_profiles profiles = .ok rs ∧
      ∀ r ∈ rs, is_fsrs6_valid_params r.profile.weights = true →
        r.nearest_profile_name.isSome = true ∧ r.nearest_distance.isSome = true ∧
        r.should_share_preset.isSome = true := by
  refine ⟨_, analyze_profiles_two profiles h2 hpos, ?_⟩
  intro r hr hrval
  rw [List.mem_mergeSort, List.mem_append] at hr
  rcases hr with hr | hr
  · exfalso
    obtain ⟨p, hp, hr'⟩ := List.mem_map.mp hr
    have hpinv := (List.mem_filter.mp hp).2
    have : is_fsrs6_valid_params p.weights = false := by simpa using hpinv
    have hprof : r.profile = p := by rw [← hr']; rfl
    rw [hprof, this] at hrval
    cases hrval
  · obtain ⟨i, hi, hr'⟩ := List.mem_map.mp hr
    have hilt : i < (valid_profiles_of profiles).length := List.mem_range.mp hi
    obtain ⟨j, hjmem, hfold, -, -⟩ :=
      foldl_nearestStep_none (pairDist (valid_profiles_of profiles) i)
        (fun j => ((valid_profiles_of profiles).getD j default).profile_name)
        (othersOf (valid_profiles_of profiles) i)
        (othersOf_ne_nil _ _ h2) (othersOf_pairwise _ _)
    have hnp : nearestPure (valid_profiles_of profiles) i =
        some (((valid_profiles_of profiles).getD j default).profile_name,
          pairDist (valid_profiles_of profiles) i j) := hfold
    have hw21 : ((valid_profiles_of profiles).getD i default).weights.length =
        FSRS6_RECENCY_DIM := valid_dim _ (getD_mem _ hilt _)
    rw [← hr']
    unfold resultFor
    rw [hnp, hw21]
    refine ⟨rfl, rfl, ?_⟩
    show (recommend_shared_preset FSRS6_RECENCY_DIM
      (some (pairDist (valid_profiles_of profiles) i j))).isSome = true
    unfold recommend_shared_preset
    show (if FSRS6_RECENCY_DIM ≠ FSRS6_RECENCY_DIM then (none : Option Bool)
      else some (if pairDist (valid_profiles_of profiles) i j <
        FSRS6_RECENCY_MAHALANOBIS_SHARED_PRESET_THRESHOLD then true else false)).isSome = true
    rw [if_neg (by simp)]
    rfl

/-- Witness for C10 at two all-ones canonical profiles. -/
theorem C10_canonical_results_definite_witness :
    ∃ rs, analyze_profiles
        [⟨1, "A", List.replicate 21 (1 : ℝ)⟩, ⟨2, "B", List.replicate 21 (1 : ℝ)⟩] =
        .ok rs ∧
      ∀ r ∈ rs, is_fsrs6_valid_params r.profile.weights = true →
        r.nearest_profile_name.isSome = true ∧ r.nearest_distance.isSome = true ∧
        r.should_share_preset.isSome = true := by
  have hval : is_fsrs6_valid_params (List.replicate 21 (1 : ℝ)) = true := by
    simp [is_fsrs6_valid_params, FSRS6_RECENCY_DIM]
  have hfl : valid_profiles_of
      [(⟨1, "A", List.replicate 21 (1 : ℝ)⟩ : FSRSProfile),
        ⟨2, "B", List.replicate 21 (1 : ℝ)⟩] =
      [⟨1, "A", List.replicate 21 (1 : ℝ)⟩, ⟨2, "B", List.replicate 21 (1 : ℝ)⟩] := by
    unfold valid_profiles_of
    simp only [List.filter_cons, List.filter_nil, hval, eq_self_iff_true, if_true]
  refine C10_canonical_results_definite _ (by rw [hfl]; simp) ?_
  intro p hp i hi
  rw [hfl] at hp
  have hw : p.weights = List.replicate 21 (1 : ℝ) := by
    rcases List.mem_cons.mp hp with h | h
    · rw [h]
    · simp only [List.mem_cons, List.not_mem_nil, or_false] at h
      rw [h]
  have hilt : i < (List.replicate 21 (1 : ℝ)).length := by
    rw [List.length_replicate]
    simp only [_LOG_FIRST_PARAM_COUNT] at hi
    omega
  rw [hw, List.getD_eq_getElem _ 0 hilt, List.getElem_replicate]
  norm_num

/-! ### C5: the pairwise matrix — cell bookkeeping -/

/-- Well-formedness of an n×n optional-distance matrix. -/
def MatWF (m : List (List (Option ℝ))) (n : ℕ) : Prop :=
  m.length = n ∧ ∀ row ∈ m, row.length = n

lemma MatWF_base (n : ℕ) : MatWF (List.replicate n (List.replicate n none)) n := by
  constructor
  · simp
  · intro row hrow
    rw [List.eq_of_mem_replicate hrow]
    simp

lemma getCell_base {n a b : ℕ} (ha : a < n) :
    getCell (List.replicate n (List.replicate n (none : Option ℝ))) a b = none := by
  unfold getCell
  rw [List.getD_eq_getElem _ [] (by simpa using ha), List.getElem_replicate]
  cases hb : (List.replicate n (none : Option ℝ)).getD b none with
  | none => rfl
  | some v =>
    exfalso
    by_cases hbl : b < n
    · rw [List.getD_eq_getElem _ none (by simpa using hbl), List.getElem_replicate] at hb
      cases hb
    · rw [List.getD_eq_getElem?_getD, List.getElem?_eq_none (by simpa using hbl)] at hb
      cases hb

lemma setCell_WF {m : List (List (Option ℝ))} {n : ℕ} (h : MatWF m n) {i : ℕ}
    (hi : i < n) (j : ℕ) (v : Option ℝ) : MatWF (setCell m i j v) n := by
  obtain ⟨hlen, hrows⟩ := h
  constructor
  · rw [setCell, List.length_set, hlen]
  · intro row hrow
    rcases List.mem_or_eq_of_mem_set hrow with hmem | heq
    · exact hrows row hmem
    · rw [heq, List.length_set]
      exact hrows _ (getD_mem m (by omega) [])

lemma getCell_setCell {m : List (List (Option ℝ))} {n : ℕ} (h : MatWF m n)
    {i j a b : ℕ} (hi : i < n) (hj : j < n) (ha : a < n) (hb : b < n) (v : Option ℝ) :
    getCell (setCell m i j v) a b = if i = a ∧ j = b then v else getCell m a b := by
  obtain ⟨hlen, hrows⟩ := h
  have hrowlen : (m.getD a []).length = n := hrows _ (getD_mem m (by omega) [])
  unfold setCell getCell
  by_cases hia : i = a
  · subst hia
    rw [List.getD_eq_getElem _ [] (by rw [List.length_set, hlen]; exact ha),
      List.getElem_set_self (by rw [List.length_set, hlen]; exact ha)]
    by_cases hjb : j = b
    · subst hjb
      rw [getD_set_self _ (by rw [hrowlen]; exact hb)]
      rw [if_pos ⟨rfl, rfl⟩]
    · rw [getD_set_ne _ hjb]
      rw [if_neg (fun hc => hjb hc.2)]
  · rw [List.getD_eq_getElem?_getD (m.set i _), List.getElem?_set, if_neg hia,
      ← List.getD_eq_getElem?_getD]
    rw [if_neg (fun hc => hia hc.1)]

/-- The diagonal-writing fold of `pairwise_distance_matrix`. -/
lemma diag_fold_spec : ∀ (L : List ℕ) (m : List (List (Option ℝ))) (n : ℕ),
    MatWF m n → (∀ i ∈ L, i < n) →
    MatWF (L.foldl (fun m i => setCell m i i (some 0)) m) n ∧
    (∀ a b, a < n → b < n →
      getCell (L.foldl (fun m i => setCell m i i (some 0)) m) a b =
        if a = b ∧ a ∈ L then some 0 else getCell m a b) := by
  intro L
  induction L with
  | nil =>
    intro m n hwf _
    refine ⟨hwf, ?_⟩
    intro a b _ _
    rw [if_neg (by simp)]
    rfl
  | cons i L ih =>
    intro m n hwf hmem
    have hi : i < n := hmem i (by simp)
    have hwf' : MatWF (setCell m i i (some 0)) n := setCell_WF hwf hi i (some 0)
    obtain ⟨hwfout, hcells⟩ := ih (setCell m i i (some 0)) n hwf'
      (fun k hk => hmem k (by simp [hk]))
    refine ⟨hwfout, ?_⟩
    intro a b ha hb
    rw [List.foldl_cons, hcells a b ha hb, getCell_setCell hwf hi hi ha hb]
    by_cases hab : a = b
    · subst hab
      by_cases haL : a ∈ L
      · rw [if_pos ⟨rfl, haL⟩, if_pos ⟨rfl, by simp [haL]⟩]
      · rw [if_neg (fun hc => haL hc.2)]
        by_cases hai : i = a
        · subst hai
          rw [if_pos ⟨rfl, rfl⟩, if_pos ⟨rfl, by simp⟩]
        · rw [if_neg (fun hc => hai hc.1), if_neg ?_]
          intro hc
          rcases List.mem_cons.mp hc.2 with hc' | hc'
          · exact hai hc'.symm
          · exact haL hc'
    · rw [if_neg (fun hc => hab hc.1), if_neg (fun hc => hab (hc.1.symm.trans hc.2)),
        if_neg (fun hc => hab hc.1)]

/-- One write event of the pairwise loop: both symmetric cells receive the
same value. -/
def writePair (I : ℕ → ℕ) (D : ℕ → ℕ → ℝ) (m : List (List (Option ℝ)))
    (q : ℕ × ℕ) : List (List (Option ℝ)) :=
  setCell (setCell m (I q.1) (I q.2) (some (D q.1 q.2))) (I q.2) (I q.1) (some (D q.1 q.2))

lemma writePair_WF {I : ℕ → ℕ} {D : ℕ → ℕ → ℝ} {m : List (List (Option ℝ))} {n : ℕ}
    (h : MatWF m n) {q : ℕ × ℕ} (h1 : I q.1 < n) (h2 : I q.2 < n) :
    MatWF (writePair I D m q) n :=
  setCell_WF (setCell_WF h h1 _ _) h2 _ _

lemma getCell_writePair {I : ℕ → ℕ} {D : ℕ → ℕ → ℝ} {m : List (List (Option ℝ))}
    {n : ℕ} (h : MatWF m n) {q : ℕ × ℕ} (h1 : I q.1 < n) (h2 : I q.2 < n)
    {a b : ℕ} (ha : a < n) (hb : b < n) :
    getCell (writePair I D m q) a b =
      if (I q.1 = a ∧ I q.2 = b) ∨ (I q.2 = a ∧ I q.1 = b) then some (D q.1 q.2)
      else getCell m a b := by
  unfold writePair
  rw [getCell_setCell (setCell_WF h h1 _ _) h2 h1 ha hb,
    getCell_setCell h h1 h2 ha hb]
  by_cases hc1 : I q.2 = a ∧ I q.1 = b
  · rw [if_pos hc1, if_pos (Or.inr hc1)]
  · rw [if_neg hc1]
    by_cases hc2 : I q.1 = a ∧ I q.2 = b
    · rw [if_pos hc2, if_pos (Or.inl hc2)]
    · rw [if_neg hc2, if_neg ?_]
      intro hc
      rcases hc with hc | hc
      · exact hc2 hc
      · exact hc1 hc

/-- Cells never touched by any pair of the write fold keep their value. -/
lemma write_fold_untouched (I : ℕ → ℕ) (D : ℕ → ℕ → ℝ) :
    ∀ (ps : List (ℕ × ℕ)) (m : List (List (Option ℝ))) (n : ℕ), MatWF m n →
    (∀ q ∈ ps, I q.1 < n ∧ I q.2 < n) →
    MatWF (ps.foldl (writePair I D) m) n ∧
    (∀ a b, a < n → b < n →
      (∀ q ∈ ps, ¬ (I q.1 = a ∧ I q.2 = b) ∧ ¬ (I q.2 = a ∧ I q.1 = b)) →
      getCell (ps.foldl (writePair I D) m) a b = getCell m a b) := by
  intro ps
  induction ps with
  | nil =>
    intro m n hwf _
    exact ⟨hwf, fun a b _ _ _ => rfl⟩
  | cons q ps ih =>
    intro m n hwf hmem
    have hq := hmem q (by simp)
    have hwf' : MatWF (writePair I D m q) n := writePair_WF hwf hq.1 hq.2
    obtain ⟨hwfout, huntouched⟩ := ih (writePair I D m q) n hwf'
      (fun p hp => hmem p (by simp [hp]))
    refine ⟨hwfout, ?_⟩
    intro a b ha hb hnone
    rw [List.foldl_cons, huntouched a b ha hb
      (fun p hp => hnone p (by simp [hp])),
      getCell_writePair hwf hq.1 hq.2 ha hb]
    have hq' := hnone q (by simp)
    rw [if_neg ?_]
    intro hc
    rcases hc with hc | hc
    · exact hq'.1 hc
    · exact hq'.2 hc

/-- A written cell whose writing pair is not repeated later holds the written
value. -/
lemma write_fold_hit (I : ℕ → ℕ) (D : ℕ → ℕ → ℝ) (ps₁ ps₂ : List (ℕ × ℕ))
    (q : ℕ × ℕ) (m : List (List (Option ℝ))) (n : ℕ) (hwf : MatWF m n)
    (hmem : ∀ p ∈ ps₁ ++ q :: ps₂, I p.1 < n ∧ I p.2 < n)
    {a b : ℕ} (ha : a < n) (hb : b < n)
    (hhit : (I q.1 = a ∧ I q.2 = b) ∨ (I q.2 = a ∧ I q.1 = b))
    (hlater : ∀ p ∈ ps₂, ¬ (I p.1 = a ∧ I p.2 = b) ∧ ¬ (I p.2 = a ∧ I p.1 = b)) :
    getCell ((ps₁ ++ q :: ps₂).foldl (writePair I D) m) a b = some (D q.1 q.2) := by
  rw [List.foldl_append, List.foldl_cons]
  have hwf₁ : MatWF (ps₁.foldl (writePair I D) m) n :=
    (write_fold_untouched I D ps₁ m n hwf
      (fun p hp => hmem p (by simp [hp]))).1
  have hq := hmem q (by simp)
  have hwf₂ : MatWF (writePair I D (ps₁.foldl (writePair I D) m) q) n :=
    writePair_WF hwf₁ hq.1 hq.2
  rw [(write_fold_untouched I D ps₂ _ n hwf₂
    (fun p hp => hmem p (by simp [hp]))).2 a b ha hb hlater]
  rw [getCell_writePair hwf₁ hq.1 hq.2 ha hb, if_pos hhit]

lemma upperPairs_mem (k : ℕ) (lo ro : ℕ) :
    (lo, ro) ∈ upperPairs k ↔ lo < k ∧ ro < k ∧ lo < ro := by
  unfold upperPairs
  rw [List.mem_flatMap]
  constructor
  · intro ⟨a, haR, hmem⟩
    obtain ⟨ro', hro', heq⟩ := List.mem_map.mp hmem
    obtain ⟨hroR, hlt⟩ := List.mem_filter.mp hro'
    injection heq with h1 h2
    subst h1
    subst h2
    exact ⟨List.mem_range.mp haR, List.mem_range.mp hroR, by simpa using hlt⟩
  · intro ⟨h1, h2, h3⟩
    refine ⟨lo, List.mem_range.mpr h1, ?_⟩
    rw [List.mem_map]
    refine ⟨ro, ?_, rfl⟩
    rw [List.mem_filter]
    exact ⟨List.mem_range.mpr h2, by simpa using h3⟩

lemma upperPairs_nodup (k : ℕ) : (upperPairs k).Nodup := by
  unfold upperPairs
  rw [List.nodup_flatMap]
  constructor
  · intro lo _
    refine List.Nodup.map ?_ (List.Nodup.filter _ (List.nodup_range k))
    intro x y hxy
    injection hxy
  · refine List.Pairwise.imp ?_ (List.pairwise_lt_range k)
    intro a b hab
    intro x hxa hxb
    obtain ⟨_, _, hx1⟩ := List.mem_map.mp hxa
    obtain ⟨_, _, hx2⟩ := List.mem_map.mp hxb
    rw [← hx1] at hx2
    injection hx2 with h1 _
    omega

/-! ### Reducing `pairwise_distance_matrix` on each branch -/

/-- The source's `sorted_profiles` local. -/
def sortedProfilesOf (profiles : List FSRSProfile) : List FSRSProfile :=
  profiles.mergeSort nameLe

/-- The source's `valid_indexes` local. -/
def validIndexesOf (profiles : List FSRSProfile) : List ℕ :=
  ((sortedProfilesOf profiles).enum.filter
    (fun p => is_fsrs6_valid_params p.2.weights)).map Prod.fst

lemma foldlM_ok_of_all {α β : Type} (f : β → α → Except PyErr β) (g : β → α → β) :
    ∀ (l : List α) (b : β), (∀ a ∈ l, ∀ b', f b' a = .ok (g b' a)) →
    l.foldlM f b = .ok (l.foldl g b) := by
  intro l
  induction l with
  | nil => intro b _; rfl
  | cons a l ih =>
    intro b h
    rw [List.foldlM_cons, List.foldl_cons]
    show (f b a).bind _ = _
    rw [h a (by simp) b]
    show l.foldlM f (g b a) = _
    exact ih (g b a) (fun x hx => h x (by simp [hx]))

lemma enum_filter_fst_pairwise {α : Type} (l : List α) (pred : ℕ × α → Bool) :
    ((l.enum.filter pred).map Prod.fst).Pairwise (· < ·) := by
  have h1 : (l.enum.map Prod.fst).Pairwise (· < ·) := by
    rw [List.enum_map_fst]
    exact List.pairwise_lt_range _
  have h2 : l.enum.Pairwise (fun a b => a.1 < b.1) := List.pairwise_map.mp h1
  exact List.pairwise_map.mpr (List.Pairwise.sublist (List.filter_sublist _) h2)

lemma enum_filter_fst_mem {α : Type} [Inhabited α] (l : List α) (pred : ℕ × α → Bool)
    (a : ℕ) : a ∈ (l.enum.filter pred).map Prod.fst ↔
      a < l.length ∧ pred (a, l.getD a default) = true := by
  rw [List.mem_map]
  constructor
  · intro ⟨p, hp, hpa⟩
    obtain ⟨hpin, hpred⟩ := List.mem_filter.mp hp
    obtain ⟨hlt, hsnd⟩ := enum_mem_spec l p hpin
    have hpeq : p = (a, l.getD a default) := by
      rcases p with ⟨p1, p2⟩
      simp only at hpa hsnd
      subst hpa
      rw [hsnd]
    rw [hpeq] at hpred
    exact ⟨hpa ▸ hlt, hpred⟩
  · intro ⟨hlt, hpred⟩
    refine ⟨(a, l.getD a default), ?_, rfl⟩
    rw [List.mem_filter]
    exact ⟨enum_mem_of_lt l hlt, hpred⟩

lemma validIndexesOf_pairwise (profiles : List FSRSProfile) :
    (validIndexesOf profiles).Pairwise (· < ·) :=
  enum_filter_fst_pairwise _ _

lemma validIndexesOf_mem (profiles : List FSRSProfile) (a : ℕ) :
    a ∈ validIndexesOf profiles ↔ a < (sortedProfilesOf profiles).length ∧
      is_fsrs6_valid_params
        ((sortedProfilesOf profiles).getD a default).weights = true :=
  enum_filter_fst_mem _ _ a

lemma pairwise_lt_getD {L : List ℕ} (hp : L.Pairwise (· < ·)) {x y : ℕ}
    (hx : x < y) (hy : y < L.length) : L.getD x 0 < L.getD y 0 := by
  rw [List.getD_eq_getElem L 0 (lt_trans hx hy), List.getD_eq_getElem L 0 hy]
  exact List.pairwise_iff_getElem.mp hp x y (lt_trans hx hy) hy hx

/-- Branch reduction of `pairwise_distance_matrix`: fewer than two canonical
profiles (non-empty input) — only the diagonal writes happen. -/
lemma pairwise_matrix_small (profiles : List FSRSProfile)
    (hk : (validIndexesOf profiles).length < 2) (hne : profiles ≠ []) :
    pairwise_distance_matrix profiles = .ok (sortedProfilesOf profiles,
      (validIndexesOf profiles).foldl (fun m i => setCell m i i (some 0))
        (List.replicate (sortedProfilesOf profiles).length
          (List.replicate (sortedProfilesOf profiles).length none))) := by
  have hsne : ¬ ((profiles.mergeSort nameLe).isEmpty = true) := by
    rw [List.isEmpty_iff]
    intro h
    have := List.mergeSort_perm profiles nameLe
    rw [h] at this
    exact hne ((List.Perm.nil_eq this).symm)
  unfold validIndexesOf sortedProfilesOf at hk ⊢
  simp only [pairwise_distance_matrix]
  rw [if_neg hsne, if_neg (by omega)]

/-- Branch reduction of `pairwise_distance_matrix`: two or more canonical
profiles with succeeding transforms — diagonal writes, then a symmetric
distance write for every strict-upper pair of valid offsets. -/
lemma pairwise_matrix_two (profiles : List FSRSProfile)
    (hk2 : 2 ≤ (validIndexesOf profiles).length)
    (hpos : ∀ p ∈ profiles, is_fsrs6_valid_params p.weights = true →
      ∀ i, i < _LOG_FIRST_PARAM_COUNT → 0 < p.weights.getD i 0) :
    pairwise_distance_matrix profiles = .ok (sortedProfilesOf profiles,
      (upperPairs (validIndexesOf profiles).length).foldl
        (writePair (fun x => (validIndexesOf profiles).getD x 0)
          (fun lo ro => mahRaw
            (tVec ((sortedProfilesOf profiles).getD
              ((validIndexesOf profiles).getD lo 0) default))
            (tVec ((sortedProfilesOf profiles).getD
              ((validIndexesOf profiles).getD ro 0) default))
            FSRS6_RECENCY_INV_COVARIANCE_21))
        ((validIndexesOf profiles).foldl (fun m i => setCell m i i (some 0))
          (List.replicate (sortedProfilesOf profiles).length
            (List.replicate (sortedProfilesOf profiles).length none)))) := by
  have hmem_vi : ∀ i ∈ validIndexesOf profiles,
      i < (sortedProfilesOf profiles).length ∧ is_fsrs6_valid_params
        ((sortedProfilesOf profiles).getD i default).weights = true :=
    fun i hi => (validIndexesOf_mem profiles i).mp hi
  have hsne : ¬ ((profiles.mergeSort nameLe).isEmpty = true) := by
    rw [List.isEmpty_iff]
    intro h
    obtain ⟨i, hi⟩ := List.exists_mem_of_length_pos
      (show 0 < (validIndexesOf profiles).length by omega)
    have := (hmem_vi i hi).1
    unfold sortedProfilesOf at this
    rw [h] at this
    simp at this
  have hdim_vi : ∀ i ∈ validIndexesOf profiles,
      ((sortedProfilesOf profiles).getD i default).weights.length =
        FSRS6_RECENCY_DIM := by
    intro i hi
    have := (hmem_vi i hi).2
    simpa [is_fsrs6_valid_params] using this
  have hmem_profiles : ∀ i ∈ validIndexesOf profiles,
      (sortedProfilesOf profiles).getD i default ∈ profiles := by
    intro i hi
    have hmem := getD_mem (sortedProfilesOf profiles) (hmem_vi i hi).1 default
    exact (List.mergeSort_perm profiles nameLe).mem_iff.mp hmem
  have htrans : ∀ i ∈ validIndexesOf profiles,
      transform_params_for_distance ((sortedProfilesOf profiles).getD i default).weights =
        .ok (tVec ((sortedProfilesOf profiles).getD i default)) := by
    intro i hi
    refine transform_ok _ _ ?_
    intro k hk
    exact hpos _ (hmem_profiles i hi) (hmem_vi i hi).2 k (by omega)
  have hmapM : (validIndexesOf profiles).mapM (fun i =>
      transform_params_for_distance ((sortedProfilesOf profiles).getD i default).weights) =
      .ok ((validIndexesOf profiles).map
        (fun i => tVec ((sortedProfilesOf profiles).getD i default))) :=
    mapM_ok_of_all _ _ _ htrans
  have hvlen : ∀ row ∈ (validIndexesOf profiles).map
      (fun i => tVec ((sortedProfilesOf profiles).getD i default)),
      row.length = FSRS6_RECENCY_DIM := by
    intro row hrow
    obtain ⟨i, hi, hrow'⟩ := List.mem_map.mp hrow
    rw [← hrow', tVec_length]
    exact hdim_vi i hi
  have hvne : (validIndexesOf profiles).map
      (fun i => tVec ((sortedProfilesOf profiles).getD i default)) ≠ [] := by
    intro h
    have := congrArg List.length h
    simp only [List.length_map, List.length_nil] at this
    omega
  have hget : get_validated_fsrs6_inverse_covariance
      ((validIndexesOf profiles).map
        (fun i => tVec ((sortedProfilesOf profiles).getD i default))) =
      .ok FSRS6_RECENCY_INV_COVARIANCE_21 := get_validated_ok _ hvne hvlen
  have hvecD : ∀ x, x < (validIndexesOf profiles).length →
      (((validIndexesOf profiles).map
        (fun i => tVec ((sortedProfilesOf profiles).getD i default))).getD x []) =
      tVec ((sortedProfilesOf profiles).getD ((validIndexesOf profiles).getD x 0) default) := by
    intro x hx
    rw [getD_map _ _ hx [] 0]
  have hmah : ∀ q ∈ upperPairs (validIndexesOf profiles).length,
      ∀ m' : List (List (Option ℝ)),
      (fun (m : List (List (Option ℝ))) (p : ℕ × ℕ) =>
        (match mahalanobis_distance
            (((validIndexesOf profiles).map
              (fun i => tVec ((sortedProfilesOf profiles).getD i default))).getD p.1 [])
            (((validIndexesOf profiles).map
              (fun i => tVec ((sortedProfilesOf profiles).getD i default))).getD p.2 [])
            FSRS6_RECENCY_INV_COVARIANCE_21 with
        | Except.error e => Except.error e
        | Except.ok dist =>
          Except.ok (setCell
            (setCell m ((validIndexesOf profiles).getD p.1 0)
              ((validIndexesOf profiles).getD p.2 0) (some dist))
            ((validIndexesOf profiles).getD p.2 0)
            ((validIndexesOf profiles).getD p.1 0) (some dist)) :
          Except PyErr (List (List (Option ℝ))))) m' q =
      .ok (writePair (fun x => (validIndexesOf profiles).getD x 0)
        (fun lo ro => mahRaw
          (tVec ((sortedProfilesOf profiles).getD
            ((validIndexesOf profiles).getD lo 0) default))
          (tVec ((sortedProfilesOf profiles).getD
            ((validIndexesOf profiles).getD ro 0) default))
          FSRS6_RECENCY_INV_COVARIANCE_21) m' q) := by
    intro q hq m'
    obtain ⟨h1, h2, _⟩ :=
      (upperPairs_mem (validIndexesOf profiles).length q.1 q.2).mp hq
    have hq1 : (validIndexesOf profiles).getD q.1 0 ∈ validIndexesOf profiles :=
      getD_mem _ h1 0
    have hq2 : (validIndexesOf profiles).getD q.2 0 ∈ validIndexesOf profiles :=
      getD_mem _ h2 0
    show (match mahalanobis_distance _ _ _ with
      | Except.error e => Except.error e
      | Except.ok dist => Except.ok _ : Except PyErr (List (List (Option ℝ)))) = _
    rw [hvecD q.1 h1, hvecD q.2 h2]
    rw [mah_ok_of_dim _ _ (by rw [tVec_length]; exact hdim_vi _ hq1)
      (by rw [tVec_length]; exact hdim_vi _ hq2)]
    rfl
  have hfold : (upperPairs (validIndexesOf profiles).length).foldlM
      (fun (m : List (List (Option ℝ))) (p : ℕ × ℕ) =>
        (match mahalanobis_distance
            (((validIndexesOf profiles).map
              (fun i => tVec ((sortedProfilesOf profiles).getD i default))).getD p.1 [])
            (((validIndexesOf profiles).map
              (fun i => tVec ((sortedProfilesOf profiles).getD i default))).getD p.2 [])
            FSRS6_RECENCY_INV_COVARIANCE_21 with
        | Except.error e => Except.error e
        | Except.ok dist =>
          Except.ok (setCell
            (setCell m ((validIndexesOf profiles).getD p.1 0)
              ((validIndexesOf profiles).getD p.2 0) (some dist))
            ((validIndexesOf profiles).getD p.2 0)
            ((validIndexesOf profiles).getD p.1 0) (some dist)) :
          Except PyErr (List (List (Option ℝ)))))
      ((validIndexesOf profiles).foldl (fun m i => setCell m i i (some 0))
        (List.replicate (sortedProfilesOf profiles).length
          (List.replicate (sortedProfilesOf profiles).length none))) =
      .ok ((upperPairs (validIndexesOf profiles).length).foldl
        (writePair (fun x => (validIndexesOf profiles).getD x 0)
          (fun lo ro => mahRaw
            (tVec ((sortedProfilesOf profiles).getD
              ((validIndexesOf profiles).getD lo 0) default))
            (tVec ((sortedProfilesOf profiles).getD
              ((validIndexesOf profiles).getD ro 0) default))
            FSRS6_RECENCY_INV_COVARIANCE_21))
        ((validIndexesOf profiles).foldl (fun m i => setCell m i i (some 0))
          (List.replicate (sortedProfilesOf profiles).length
            (List.replicate (sortedProfilesOf profiles).length none)))) :=
    foldlM_ok_of_all _ _ _ _ (fun q hq b' => hmah q hq b')
  unfold validIndexesOf sortedProfilesOf at hk2 hmapM hget hfold ⊢
  simp only [pairwise_distance_matrix]
  rw [if_neg hsne, if_pos hk2]
  simp only [hmapM, hget, hfold]

lemma nodup_of_pairwise_lt {L : List ℕ} (h : L.Pairwise (· < ·)) : L.Nodup :=
  h.imp (fun hlt => Nat.ne_of_lt hlt)

lemma two_le_length_of_mem_ne {α : Type} {l : List α} {a b : α} (ha : a ∈ l)
    (hb : b ∈ l) (hab : a ≠ b) : 2 ≤ l.length := by
  cases l with
  | nil => cases ha
  | cons x xs =>
    cases xs with
    | nil =>
      simp only [List.mem_cons, List.not_mem_nil, or_false] at ha hb
      exact absurd (ha.trans hb.symm) hab
    | cons y ys =>
      simp only [List.length_cons]
      omega

lemma mem_getD_index {L : List ℕ} {a : ℕ} (ha : a ∈ L) :
    ∃ x, x < L.length ∧ L.getD x 0 = a := by
  obtain ⟨x, hx, hxa⟩ := List.mem_iff_getElem.mp ha
  exact ⟨x, hx, by rw [List.getD_eq_getElem L 0 hx]; exact hxa⟩

/-- C5 (amended): provided that, when two or more canonical profiles exist,
every canonical profile's leading weights are strictly positive (the
transform runs only in that case; with two or more canonical profiles and a
non-positive leading weight the computation fails instead, see the
counterexample), `pairwise_distance_matrix` returns the profiles sorted by
case-insensitive name with an N×N matrix indexed in that order; the matrix
is symmetric, carries `0.0` on the diagonal of every canonical profile,
holds the Mahalanobis distance of the transformed vectors in every
off-diagonal cell joining two canonical profiles, and leaves every other
cell — any cell involving a non-canonical profile, or any off-diagonal cell
when fewer than two canonical profiles exist — unset. -/
theorem C5_pairwise_distance_matrix_spec (profiles : List FSRSProfile)
    (hpos : 2 ≤ (validIndexesOf profiles).length →
      ∀ p ∈ profiles, is_fsrs6_valid_params p.weights = true →
      ∀ i, i < _LOG_FIRST_PARAM_COUNT → 0 < p.weights.getD i 0) :
    ∃ M, pairwise_distance_matrix profiles = .ok (sortedProfilesOf profiles, M) ∧
      M.length = (sortedProfilesOf profiles).length ∧
      (∀ row ∈ M, row.length = (sortedProfilesOf profiles).length) ∧
      (∀ a b, a < (sortedProfilesOf profiles).length →
        b < (sortedProfilesOf profiles).length → getCell M a b = getCell M b a) ∧
      (∀ a, a < (sortedProfilesOf profiles).length →
        is_fsrs6_valid_params
          ((sortedProfilesOf profiles).getD a default).weights = true →
        getCell M a a = some 0) ∧
      (∀ a b, a < (sortedProfilesOf profiles).length →
        b < (sortedProfilesOf profiles).length → a ≠ b →
        is_fsrs6_valid_params
          ((sortedProfilesOf profiles).getD a default).weights = true →
        is_fsrs6_valid_params
          ((sortedProfilesOf profiles).getD b default).weights = true →
        getCell M a b = some (mahRaw
          (tVec ((sortedProfilesOf profiles).getD a default))
          (tVec ((sortedProfilesOf profiles).getD b default))
          FSRS6_RECENCY_INV_COVARIANCE_21)) ∧
      (∀ a b, a < (sortedProfilesOf profiles).length →
        b < (sortedProfilesOf profiles).length →
        (is_fsrs6_valid_params
            ((sortedProfilesOf profiles).getD a default).weights = false ∨
          is_fsrs6_valid_params
            ((sortedProfilesOf profiles).getD b default).weights = false ∨
          (a ≠ b ∧ (validIndexesOf profiles).length < 2)) →
        getCell M a b = none) := by
  by_cases hpe : profiles = []
  · subst hpe
    have hsort : sortedProfilesOf ([] : List FSRSProfile) = [] := by
      unfold sortedProfilesOf
      simp
    have hlen0 : (sortedProfilesOf ([] : List FSRSProfile)).length = 0 := by
      rw [hsort]
      rfl
    refine ⟨[], ?_, ?_, ?_, ?_, ?_, ?_, ?_⟩
    · show pairwise_distance_matrix [] = .ok (sortedProfilesOf [], [])
      rw [hsort]
      simp [pairwise_distance_matrix]
    · rw [hlen0]
      rfl
    · intro row hrow
      cases hrow
    · intro a b ha _
      exfalso
      omega
    · intro a ha _
      exfalso
      omega
    · intro a b ha _ _ _ _
      exfalso
      omega
    · intro a b ha _ _
      exfalso
      omega
  · -- shared facts
    have hvi_mem := validIndexesOf_mem profiles
    have hvi_pair := validIndexesOf_pairwise profiles
    have hvi_lt : ∀ i ∈ validIndexesOf profiles,
        i < (sortedProfilesOf profiles).length := fun i hi => ((hvi_mem i).mp hi).1
    have hbaseWF := MatWF_base (sortedProfilesOf profiles).length
    obtain ⟨hdWF, hdcells⟩ := diag_fold_spec (validIndexesOf profiles) _
      (sortedProfilesOf profiles).length hbaseWF hvi_lt
    have hdiagval : ∀ a b, a < (sortedProfilesOf profiles).length →
        b < (sortedProfilesOf profiles).length →
        getCell ((validIndexesOf profiles).foldl (fun m i => setCell m i i (some 0))
          (List.replicate (sortedProfilesOf profiles).length
            (List.replicate (sortedProfilesOf profiles).length none))) a b =
        if a = b ∧ a ∈ validIndexesOf profiles then some 0 else none := by
      intro a b ha hb
      rw [hdcells a b ha hb, getCell_base ha]
    by_cases hk2 : 2 ≤ (validIndexesOf profiles).length
    · -- two or more canonical profiles: diagonal plus pair writes
      have hIlt : ∀ q ∈ upperPairs (validIndexesOf profiles).length,
          (validIndexesOf profiles).getD q.1 0 < (sortedProfilesOf profiles).length ∧
          (validIndexesOf profiles).getD q.2 0 < (sortedProfilesOf profiles).length := by
        intro q hq
        obtain ⟨h1, h2, _⟩ :=
          (upperPairs_mem (validIndexesOf profiles).length q.1 q.2).mp hq
        exact ⟨hvi_lt _ (getD_mem _ h1 0), hvi_lt _ (getD_mem _ h2 0)⟩
      have hWFfinal := (write_fold_untouched
        (fun x => (validIndexesOf profiles).getD x 0)
        (fun lo ro => mahRaw
          (tVec ((sortedProfilesOf profiles).getD
            ((validIndexesOf profiles).getD lo 0) default))
          (tVec ((sortedProfilesOf profiles).getD
            ((validIndexesOf profiles).getD ro 0) default))
          FSRS6_RECENCY_INV_COVARIANCE_21)
        (upperPairs (validIndexesOf profiles).length) _
        (sortedProfilesOf profiles).length hdWF hIlt).1
      have hInj : ∀ x y, x < (validIndexesOf profiles).length →
          y < (validIndexesOf profiles).length → x ≠ y →
          (validIndexesOf profiles).getD x 0 ≠ (validIndexesOf profiles).getD y 0 := by
        intro x y hx hy hxy
        rcases Nat.lt_or_ge x y with h | h
        · exact Nat.ne_of_lt (pairwise_lt_getD hvi_pair h hy)
        · have hyx : y < x := by omega
          exact (Nat.ne_of_lt (pairwise_lt_getD hvi_pair hyx hx)).symm
      have hcell_untouched : ∀ a b, a < (sortedProfilesOf profiles).length →
          b < (sortedProfilesOf profiles).length →
          (∀ q ∈ upperPairs (validIndexesOf profiles).length,
            ¬ ((validIndexesOf profiles).getD q.1 0 = a ∧
               (validIndexesOf profiles).getD q.2 0 = b) ∧
            ¬ ((validIndexesOf profiles).getD q.2 0 = a ∧
               (validIndexesOf profiles).getD q.1 0 = b)) →
          getCell ((upperPairs (validIndexesOf profiles).length).foldl
            (writePair (fun x => (validIndexesOf profiles).getD x 0)
              (fun lo ro => mahRaw
                (tVec ((sortedProfilesOf profiles).getD
                  ((validIndexesOf profiles).getD lo 0) default))
                (tVec ((sortedProfilesOf profiles).getD
                  ((validIndexesOf profiles).getD ro 0) default))
                FSRS6_RECENCY_INV_COVARIANCE_21))
            ((validIndexesOf profiles).foldl (fun m i => setCell m i i (some 0))
              (List.replicate (sortedProfilesOf profiles).length
                (List.replicate (sortedProfilesOf profiles).length none)))) a b =
          if a = b ∧ a ∈ validIndexesOf profiles then some 0 else none := by
        intro a b ha hb hno
        rw [(write_fold_untouched _ _ _ _ _ hdWF hIlt).2 a b ha hb hno,
          hdiagval a b ha hb]
      have hdimOf : ∀ a, a < (sortedProfilesOf profiles).length →
          is_fsrs6_valid_params
            ((sortedProfilesOf profiles).getD a default).weights = true →
          (tVec ((sortedProfilesOf profiles).getD a default)).length =
            FSRS6_RECENCY_DIM := by
        intro a _ hv
        rw [tVec_length]
        simpa [is_fsrs6_valid_params] using hv
      have hdiag_cell : ∀ a, a < (sortedProfilesOf profiles).length →
          is_fsrs6_valid_params
            ((sortedProfilesOf profiles).getD a default).weights = true →
          getCell ((upperPairs (validIndexesOf profiles).length).foldl
            (writePair (fun x => (validIndexesOf profiles).getD x 0)
              (fun lo ro => mahRaw
                (tVec ((sortedProfilesOf profiles).getD
                  ((validIndexesOf profiles).getD lo 0) default))
                (tVec ((sortedProfilesOf profiles).getD
                  ((validIndexesOf profiles).getD ro 0) default))
                FSRS6_RECENCY_INV_COVARIANCE_21))
            ((validIndexesOf profiles).foldl (fun m i => setCell m i i (some 0))
              (List.replicate (sortedProfilesOf profiles).length
                (List.replicate (sortedProfilesOf profiles).length none)))) a a =
            some 0 := by
        intro a ha hva
        rw [hcell_untouched a a ha ha ?_, if_pos ⟨rfl, (hvi_mem a).mpr ⟨ha, hva⟩⟩]
        intro q hq
        obtain ⟨h1, h2, hlt⟩ :=
          (upperPairs_mem (validIndexesOf profiles).length q.1 q.2).mp hq
        have hne := hInj q.1 q.2 h1 h2 (by omega)
        exact ⟨fun hc => hne (hc.1.trans hc.2.symm),
          fun hc => hne (hc.2.trans hc.1.symm)⟩
      have hoff_cell : ∀ a b, a < (sortedProfilesOf profiles).length →
          b < (sortedProfilesOf profiles).length → a ≠ b →
          is_fsrs6_valid_params
            ((sortedProfilesOf profiles).getD a default).weights = true →
          is_fsrs6_valid_params
            ((sortedProfilesOf profiles).getD b default).weights = true →
          getCell ((upperPairs (validIndexesOf profiles).length).foldl
            (writePair (fun x => (validIndexesOf profiles).getD x 0)
              (fun lo ro => mahRaw
                (tVec ((sortedProfilesOf profiles).getD
                  ((validIndexesOf profiles).getD lo 0) default))
                (tVec ((sortedProfilesOf profiles).getD
                  ((validIndexesOf profiles).getD ro 0) default))
                FSRS6_RECENCY_INV_COVARIANCE_21))
            ((validIndexesOf profiles).foldl (fun m i => setCell m i i (some 0))
              (List.replicate (sortedProfilesOf profiles).length
                (List.replicate (sortedProfilesOf profiles).length none)))) a b =
          some (mahRaw
            (tVec ((sortedProfilesOf profiles).getD a default))
            (tVec ((sortedProfilesOf profiles).getD b default))
            FSRS6_RECENCY_INV_COVARIANCE_21) := by
        intro a b ha hb hab hva hvb
        have haK : a ∈ validIndexesOf profiles := (hvi_mem a).mpr ⟨ha, hva⟩
        have hbK : b ∈ validIndexesOf profiles := (hvi_mem b).mpr ⟨hb, hvb⟩
        obtain ⟨x, hx, hxa⟩ := mem_getD_index haK
        obtain ⟨y, hy, hyb⟩ := mem_getD_index hbK
        have hxy : x ≠ y := by
          intro h
          subst h
          exact hab (hxa.symm.trans hyb)
        rcases Nat.lt_or_ge x y with hlt | hge
        · -- pair (x, y) writes the cell in the claimed orientation
          have hq0 : (x, y) ∈ upperPairs (validIndexesOf profiles).length :=
            (upperPairs_mem _ x y).mpr ⟨hx, hy, hlt⟩
          obtain ⟨s, t, hsplit⟩ := List.append_of_mem hq0
          have hnotin : (x, y) ∉ t := by
            have hnd := upperPairs_nodup (validIndexesOf profiles).length
            rw [hsplit] at hnd
            exact (List.nodup_cons.mp
              (List.Nodup.sublist (List.sublist_append_right s _) hnd)).1
          have hlater : ∀ p ∈ t,
              ¬ ((validIndexesOf profiles).getD p.1 0 = a ∧
                 (validIndexesOf profiles).getD p.2 0 = b) ∧
              ¬ ((validIndexesOf profiles).getD p.2 0 = a ∧
                 (validIndexesOf profiles).getD p.1 0 = b) := by
            intro p hp
            have hpmem : p ∈ upperPairs (validIndexesOf profiles).length := by
              rw [hsplit]
              simp [hp]
            obtain ⟨hp1, hp2, hplt⟩ := (upperPairs_mem _ p.1 p.2).mp hpmem
            constructor
            · intro hc
              have he1 : p.1 = x := by
                by_contra hc'
                exact hInj p.1 x hp1 hx hc' (hc.1.trans hxa.symm)
              have he2 : p.2 = y := by
                by_contra hc'
                exact hInj p.2 y hp2 hy hc' (hc.2.trans hyb.symm)
              apply hnotin
              have : p = (x, y) := Prod.ext he1 he2
              rw [← this]
              exact hp
            · intro hc
              have he1 : p.2 = x := by
                by_contra hc'
                exact hInj p.2 x hp2 hx hc' (hc.1.trans hxa.symm)
              have he2 : p.1 = y := by
                by_contra hc'
                exact hInj p.1 y hp1 hy hc' (hc.2.trans hyb.symm)
              omega
          rw [hsplit]
          rw [write_fold_hit _ _ s t (x, y) _ _ hdWF (hsplit ▸ hIlt) ha hb
            (Or.inl ⟨hxa, hyb⟩) hlater]
          rw [hxa, hyb]
        · -- pair (y, x) writes the cell in the swapped orientation
          have hylt : y < x := by omega
          have hq0 : (y, x) ∈ upperPairs (validIndexesOf profiles).length :=
            (upperPairs_mem _ y x).mpr ⟨hy, hx, hylt⟩
          obtain ⟨s, t, hsplit⟩ := List.append_of_mem hq0
          have hnotin : (y, x) ∉ t := by
            have hnd := upperPairs_nodup (validIndexesOf profiles).length
            rw [hsplit] at hnd
            exact (List.nodup_cons.mp
              (List.Nodup.sublist (List.sublist_append_right s _) hnd)).1
          have hlater : ∀ p ∈ t,
              ¬ ((validIndexesOf profiles).getD p.1 0 = a ∧
                 (validIndexesOf profiles).getD p.2 0 = b) ∧
              ¬ ((validIndexesOf profiles).getD p.2 0 = a ∧
                 (validIndexesOf profiles).getD p.1 0 = b) := by
            intro p hp
            have hpmem : p ∈ upperPairs (validIndexesOf profiles).length := by
              rw [hsplit]
              simp [hp]
            obtain ⟨hp1, hp2, hplt⟩ := (upperPairs_mem _ p.1 p.2).mp hpmem
            constructor
            · intro hc
              have he1 : p.1 = x := by
                by_contra hc'
                exact hInj p.1 x hp1 hx hc' (hc.1.trans hxa.symm)
              have he2 : p.2 = y := by
                by_contra hc'
                exact hInj p.2 y hp2 hy hc' (hc.2.trans hyb.symm)
              omega
            · intro hc
              have he1 : p.2 = x := by
                by_contra hc'
                exact hInj p.2 x hp2 hx hc' (hc.1.trans hxa.symm)
              have he2 : p.1 = y := by
                by_contra hc'
                exact hInj p.1 y hp1 hy hc' (hc.2.trans hyb.symm)
              apply hnotin
              have : p = (y, x) := Prod.ext he2 he1
              rw [← this]
              exact hp
          rw [hsplit]
          rw [write_fold_hit _ _ s t (y, x) _ _ hdWF (hsplit ▸ hIlt) ha hb
            (Or.inr ⟨hxa, hyb⟩) hlater]
          rw [hyb, hxa]
          rw [mahRaw_symm _ _ _ ((hdimOf b hb hvb).trans (hdimOf a ha hva).symm)]
      have hnone_cell : ∀ a b, a < (sortedProfilesOf profiles).length →
          b < (sortedProfilesOf profiles).length →
          (is_fsrs6_valid_params
              ((sortedProfilesOf profiles).getD a default).weights = false ∨
            is_fsrs6_valid_params
              ((sortedProfilesOf profiles).getD b default).weights = false ∨
            (a ≠ b ∧ (validIndexesOf profiles).length < 2)) →
          getCell ((upperPairs (validIndexesOf profiles).length).foldl
            (writePair (fun x => (validIndexesOf profiles).getD x 0)
              (fun lo ro => mahRaw
                (tVec ((sortedProfilesOf profiles).getD
                  ((validIndexesOf profiles).getD lo 0) default))
                (tVec ((sortedProfilesOf profiles).getD
                  ((validIndexesOf profiles).getD ro 0) default))
                FSRS6_RECENCY_INV_COVARIANCE_21))
            ((validIndexesOf profiles).foldl (fun m i => setCell m i i (some 0))
              (List.replicate (sortedProfilesOf profiles).length
                (List.replicate (sortedProfilesOf profiles).length none)))) a b =
            none := by
        intro a b ha hb hc
        rcases hc with hc | hc | hc
        · -- a is not canonical: a never appears among the valid indexes
          have haK : a ∉ validIndexesOf profiles := by
            intro h
            rw [((hvi_mem a).mp h).2] at hc
            cases hc
          rw [hcell_untouched a b ha hb ?_, if_neg (fun h => haK h.2)]
          intro q hq
          obtain ⟨h1, h2, _⟩ :=
            (upperPairs_mem (validIndexesOf profiles).length q.1 q.2).mp hq
          exact ⟨fun h => haK (h.1 ▸ getD_mem _ h1 0),
            fun h => haK (h.1 ▸ getD_mem _ h2 0)⟩
        · -- b is not canonical
          have hbK : b ∉ validIndexesOf profiles := by
            intro h
            rw [((hvi_mem b).mp h).2] at hc
            cases hc
          rw [hcell_untouched a b ha hb ?_, if_neg ?_]
          · intro h
            exact hbK (h.1 ▸ h.2)
          · intro q hq
            obtain ⟨h1, h2, _⟩ :=
              (upperPairs_mem (validIndexesOf profiles).length q.1 q.2).mp hq
            exact ⟨fun h => hbK (h.2 ▸ getD_mem _ h2 0),
              fun h => hbK (h.2 ▸ getD_mem _ h1 0)⟩
        · -- an off-diagonal cell with fewer than two canonical profiles
          omega
      refine ⟨_, pairwise_matrix_two profiles hk2 (hpos hk2), hWFfinal.1, hWFfinal.2,
        ?_, hdiag_cell, hoff_cell, hnone_cell⟩
      -- symmetry
      intro a b ha hb
      by_cases hab : a = b
      · subst hab
        rfl
      · by_cases hva : is_fsrs6_valid_params
            ((sortedProfilesOf profiles).getD a default).weights = true
        · by_cases hvb : is_fsrs6_valid_params
              ((sortedProfilesOf profiles).getD b default).weights = true
          · rw [hoff_cell a b ha hb hab hva hvb,
              hoff_cell b a hb ha (Ne.symm hab) hvb hva]
            rw [mahRaw_symm _ _ _ ((hdimOf a ha hva).trans (hdimOf b hb hvb).symm)]
          · rw [hnone_cell a b ha hb (Or.inr (Or.inl (by simpa using hvb))),
              hnone_cell b a hb ha (Or.inl (by simpa using hvb))]
        · rw [hnone_cell a b ha hb (Or.inl (by simpa using hva)),
            hnone_cell b a hb ha (Or.inr (Or.inl (by simpa using hva)))]
    · -- fewer than two canonical profiles: only the diagonal is set
      refine ⟨_, pairwise_matrix_small profiles (by omega) hpe, hdWF.1, hdWF.2,
        ?_, ?_, ?_, ?_⟩
      · intro a b ha hb
        rw [hdiagval a b ha hb, hdiagval b a hb ha]
        by_cases hab : a = b
        · subst hab
          rfl
        · rw [if_neg (fun h => hab h.1), if_neg (fun h => hab h.1.symm)]
      · intro a ha hva
        rw [hdiagval a a ha ha, if_pos ⟨rfl, (hvi_mem a).mpr ⟨ha, hva⟩⟩]
      · intro a b ha hb hab hva hvb
        exfalso
        have haK : a ∈ validIndexesOf profiles := (hvi_mem a).mpr ⟨ha, hva⟩
        have hbK : b ∈ validIndexesOf profiles := (hvi_mem b).mpr ⟨hb, hvb⟩
        exact hk2 (two_le_length_of_mem_ne haK hbK hab)
      · intro a b ha hb hc
        rw [hdiagval a b ha hb, if_neg ?_]
        intro h
        have hva := ((hvi_mem a).mp h.2).2
        rcases hc with hc | hc | hc
        · rw [hva] at hc
          cases hc
        · rw [← h.1, hva] at hc
          cases hc
        · exact hc.1 h.1

/-- Counterexample to C5 as stated: on two canonical-dimension profiles
whose leading weights are not strictly positive, `pairwise_distance_matrix`
raises the log-transform error instead of returning a matrix. -/
theorem C5_counterexample :
    pairwise_distance_matrix
      [⟨1, "A", List.replicate 21 (-1 : ℝ)⟩, ⟨2, "B", List.replicate 21 (-1 : ℝ)⟩] =
      .error (.invalidInput "Log transform requires strictly positive first FSRS params") := by
  have hval : is_fsrs6_valid_params (List.replicate 21 (-1 : ℝ)) = true := by
    simp [is_fsrs6_valid_params, FSRS6_RECENCY_DIM]
  have htrans : transform_params_for_distance (List.replicate 21 (-1 : ℝ)) =
      .error (.invalidInput "Log transform requires strictly positive first FSRS params") := by
    unfold transform_params_for_distance
    rw [logLoop_error_iff]
    refine ⟨0, le_refl 0, ?_, ?_⟩
    · have hl : (List.replicate 21 (-1 : ℝ)).length = 21 := List.length_replicate 21 (-1)
      simp only [_LOG_FIRST_PARAM_COUNT]
      omega
    · have hlt : 0 < (List.replicate 21 (-1 : ℝ)).length := by
        rw [List.length_replicate]
        omega
      rw [List.getD_eq_getElem _ 0 hlt, List.getElem_replicate]
      norm_num
  have hperm := List.mergeSort_perm
    [(⟨1, "A", List.replicate 21 (-1 : ℝ)⟩ : FSRSProfile),
      ⟨2, "B", List.replicate 21 (-1 : ℝ)⟩] nameLe
  have hslen : ([(⟨1, "A", List.replicate 21 (-1 : ℝ)⟩ : FSRSProfile),
      ⟨2, "B", List.replicate 21 (-1 : ℝ)⟩].mergeSort nameLe).length = 2 := by
    rw [hperm.length_eq]
    rfl
  have hmem_w : ∀ p ∈ [(⟨1, "A", List.replicate 21 (-1 : ℝ)⟩ : FSRSProfile),
      ⟨2, "B", List.replicate 21 (-1 : ℝ)⟩].mergeSort nameLe,
      p.weights = List.replicate 21 (-1 : ℝ) := by
    intro p hp
    have hpP := hperm.mem_iff.mp hp
    rcases List.mem_cons.mp hpP with h | h
    · rw [h]
    · simp only [List.mem_cons, List.not_mem_nil, or_false] at h
      rw [h]
  have hsne : ¬ (([(⟨1, "A", List.replicate 21 (-1 : ℝ)⟩ : FSRSProfile),
      ⟨2, "B", List.replicate 21 (-1 : ℝ)⟩].mergeSort nameLe).isEmpty = true) := by
    rw [List.isEmpty_iff]
    intro h
    rw [h] at hslen
    cases hslen
  have hfilter : ([(⟨1, "A", List.replicate 21 (-1 : ℝ)⟩ : FSRSProfile),
      ⟨2, "B", List.replicate 21 (-1 : ℝ)⟩].mergeSort nameLe).enum.filter
        (fun p => is_fsrs6_valid_params p.2.weights) =
      ([(⟨1, "A", List.replicate 21 (-1 : ℝ)⟩ : FSRSProfile),
        ⟨2, "B", List.replicate 21 (-1 : ℝ)⟩].mergeSort nameLe).enum := by
    rw [List.filter_eq_self]
    intro q hq
    have h2 : q.2 ∈ [(⟨1, "A", List.replicate 21 (-1 : ℝ)⟩ : FSRSProfile),
        ⟨2, "B", List.replicate 21 (-1 : ℝ)⟩].mergeSort nameLe := by
      rw [← List.enum_map_snd ([(⟨1, "A", List.replicate 21 (-1 : ℝ)⟩ : FSRSProfile),
        ⟨2, "B", List.replicate 21 (-1 : ℝ)⟩].mergeSort nameLe)]
      exact List.mem_map_of_mem Prod.snd hq
    rw [hmem_w q.2 h2]
    exact hval
  have hvi : (([(⟨1, "A", List.replicate 21 (-1 : ℝ)⟩ : FSRSProfile),
      ⟨2, "B", List.replicate 21 (-1 : ℝ)⟩].mergeSort nameLe).enum.filter
        (fun p => is_fsrs6_valid_params p.2.weights)).map Prod.fst = List.range 2 := by
    rw [hfilter, List.enum_map_fst, hslen]
  have hw0 : (([(⟨1, "A", List.replicate 21 (-1 : ℝ)⟩ : FSRSProfile),
      ⟨2, "B", List.replicate 21 (-1 : ℝ)⟩].mergeSort nameLe).getD 0 default).weights =
      List.replicate 21 (-1 : ℝ) :=
    hmem_w _ (getD_mem _ (by rw [hslen]; omega) default)
  have hr2 : List.range 2 = [0, 1] := by decide
  have hmapM : (List.range 2).mapM (fun i => transform_params_for_distance
      (([(⟨1, "A", List.replicate 21 (-1 : ℝ)⟩ : FSRSProfile),
        ⟨2, "B", List.replicate 21 (-1 : ℝ)⟩].mergeSort nameLe).getD i default).weights) =
      .error (.invalidInput "Log transform requires strictly positive first FSRS params") := by
    rw [hr2, List.mapM_cons]
    show (transform_params_for_distance _).bind _ = _
    rw [hw0, htrans]
    rfl
  simp only [pairwise_distance_matrix]
  rw [if_neg hsne, hvi, if_pos (by simp)]
  simp only [hmapM]

/-- Witness for C5 (amended) at two all-ones canonical profiles. -/
theorem C5_pairwise_distance_matrix_spec_witness :
    ∃ M, pairwise_distance_matrix
        [⟨1, "A", List.replicate 21 (1 : ℝ)⟩, ⟨2, "B", List.replicate 21 (1 : ℝ)⟩] =
      .ok (sortedProfilesOf
        [⟨1, "A", List.replicate 21 (1 : ℝ)⟩, ⟨2, "B", List.replicate 21 (1 : ℝ)⟩], M) ∧
      M.length = (sortedProfilesOf
        [⟨1, "A", List.replicate 21 (1 : ℝ)⟩, ⟨2, "B", List.replicate 21 (1 : ℝ)⟩]).length := by
  have hpos : 2 ≤ (validIndexesOf
      [(⟨1, "A", List.replicate 21 (1 : ℝ)⟩ : FSRSProfile),
        ⟨2, "B", List.replicate 21 (1 : ℝ)⟩]).length →
      ∀ p ∈ [(⟨1, "A", List.replicate 21 (1 : ℝ)⟩ : FSRSProfile),
        ⟨2, "B", List.replicate 21 (1 : ℝ)⟩],
      is_fsrs6_valid_params p.weights = true →
      ∀ i, i < _LOG_FIRST_PARAM_COUNT → 0 < p.weights.getD i 0 := by
    intro _ p hp _ i hi
    have hw : p.weights = List.replicate 21 (1 : ℝ) := by
      rcases List.mem_cons.mp hp with h | h
      · rw [h]
      · simp only [List.mem_cons, List.not_mem_nil, or_false] at h
        rw [h]
    have hilt : i < (List.replicate 21 (1 : ℝ)).length := by
      rw [List.length_replicate]
      simp only [_LOG_FIRST_PARAM_COUNT] at hi
      omega
    rw [hw, List.getD_eq_getElem _ 0 hilt, List.getElem_replicate]
    norm_num
  obtain ⟨M, h1, h2, -⟩ := C5_pairwise_distance_matrix_spec
    [⟨1, "A", List.replicate 21 (1 : ℝ)⟩, ⟨2, "B", List.replicate 21 (1 : ℝ)⟩] hpos
  exact ⟨M, h1, h2⟩

end FsrsMergeAdvisor
